import Mathlib

/-!
# A verification development for `usu::vector` (src/vector.hpp)

The container is embedded shallowly.  A `vector` value is the tuple of the four
private members of the class; every member function becomes a function that
takes the state before the call and returns how the call ended together with
the state after it.

Modelling conventions

* `size_type` values are natural numbers.  The sums and differences that the
  member functions form (`m_size + 1`, `i - 1`, `m_size - 1`, ...) are guarded
  by the preceding comparison or follow an access to the slot of that index,
  and `currentCapacity * 2` is formed from the size of a live allocation, which
  has fewer than `2 ^ 63` elements, so they are computed without reduction.
  The one product formed from a number the caller supplies, `size * 2` in
  `vector(size_type)`, is reduced modulo `SIZE_MOD = 2 ^ 64`.
* The owned buffer `m_data` is the list of the slots of the allocation.
  Reading or writing a slot outside of the allocation has no meaning in C++;
  the model makes that visible as the outcome `Outcome.undefined`, so a theorem
  that a call returns also says that it stays inside of the allocation.
* `std::move` of an element is modelled as a copy: a moved-from slot is always
  overwritten or lies outside of the live range afterwards.
* A throwing call returns the exception together with the state in which the
  object was left.
* Allocation always succeeds.
-/

namespace usu

/-- The modulus of `size_type` arithmetic (`std::size_t` of 64 bits). -/
def SIZE_MOD : Nat := 2 ^ 64

/-- The exception classes thrown by the header, with their `what()` text. -/
inductive Exception where
  | range_error (what : String)
  | out_of_range (what : String)
deriving DecidableEq, Repr

/-- How a call ends: it returns a value, it throws, or it touches memory
outside of an allocation (undefined behaviour). -/
inductive Outcome (β : Type) where
  | returned (val : β)
  | thrown (e : Exception)
  | undefined
deriving DecidableEq, Repr

/-! ## The buffer -/

/-- The library call `std::make_unique<T[]>(n)`: an allocation of `n` value-initialised slots. -/
def make_unique (α : Type) [Inhabited α] (n : Nat) : List α :=
  List.replicate n default

/-- Reading `data[i]`; `none` when slot `i` is not part of the allocation. -/
def read {α : Type} (data : List α) (i : Nat) : Option α :=
  data[i]?

/-- The assignment `data[i] = x`; `none` when slot `i` is not part of the
allocation. -/
def write {α : Type} (data : List α) (i : Nat) (x : α) : Option (List α) :=
  if i < data.length then some (data.set i x) else none

/-- The library call `std::move(src, src + n, dst)`: the first `n` slots of `src` are moved to
the first `n` slots of `dst`; `none` when either range leaves its allocation. -/
def std_move {α : Type} (src : List α) (n : Nat) (dst : List α) : Option (List α) :=
  if n ≤ src.length ∧ n ≤ dst.length then some (src.take n ++ dst.drop n) else none

/-! ## The container -/

/-- The private members of `usu::vector<T, InitialCapacity>`. -/
structure vector (α : Type) where
  m_size : Nat
  m_capacity : Nat
  m_resize_type : Nat → Nat
  m_data : List α

/-- Sequencing of two steps of a member function: the second step runs only
when the first one returned. -/
def andThen {α β : Type} (r : Outcome Unit × vector α)
    (k : vector α → Outcome β × vector α) : Outcome β × vector α :=
  match r with
  | (.returned _, v) => k v
  | (.thrown e, v) => (.thrown e, v)
  | (.undefined, v) => (.undefined, v)

namespace vector

variable {α : Type} [Inhabited α]

/-- The representation invariant: the length is within the capacity and the
capacity is the size of the allocation. -/
def wf (v : vector α) : Prop :=
  v.m_size ≤ v.m_capacity ∧ v.m_data.length = v.m_capacity

instance (v : vector α) : Decidable v.wf :=
  inferInstanceAs (Decidable (v.m_size ≤ v.m_capacity ∧ v.m_data.length = v.m_capacity))

/-- The live sequence: the slots `[0, m_size)` of the buffer. -/
def live (v : vector α) : List α :=
  v.m_data.take v.m_size

/-- The constructor `vector()`. -/
def ctor (InitialCapacity : Nat) : vector α :=
  { m_size := 0
    m_capacity := InitialCapacity
    m_resize_type := fun currentCapacity => currentCapacity * 2
    m_data := make_unique α InitialCapacity }

/-- The private member `resize_capacity(new_capacity)`. -/
def resize_capacity (new_capacity : Nat) (v : vector α) : Outcome Unit × vector α :=
  let new_data := make_unique α new_capacity
  match std_move v.m_data v.m_size new_data with
  | none => (.undefined, v)
  | some moved => (.returned (), { v with m_data := moved, m_capacity := new_capacity })

/-- The constructor `vector(size_type size)`. -/
def ctor_size (InitialCapacity : Nat) (size : Nat) : Outcome Unit × vector α :=
  andThen
    (resize_capacity
      (if size > InitialCapacity then size * 2 % SIZE_MOD else InitialCapacity)
      (ctor InitialCapacity))
    fun v => (.returned (), { v with m_size := size })

/-- The constructor `vector(resize_type resize)`. -/
def ctor_resize (InitialCapacity : Nat) (resize : Nat → Nat) : vector α :=
  { (ctor InitialCapacity : vector α) with m_resize_type := resize }

/-- The constructor `vector(size_type size, resize_type resize)`. -/
def ctor_size_resize (InitialCapacity : Nat) (size : Nat) (resize : Nat → Nat) :
    Outcome Unit × vector α :=
  andThen (ctor_size InitialCapacity size)
    fun v => (.returned (), { v with m_resize_type := resize })

/-- The member `operator[](index)`, read through the returned reference. -/
def index (index : Nat) (v : vector α) : Outcome α × vector α :=
  if index ≥ v.m_size then (.thrown (.range_error "Out of Range"), v)
  else
    match read v.m_data index with
    | none => (.undefined, v)
    | some x => (.returned x, v)

/-- The conditional growth at the head of `add` and `insert`:
`if (m_size == m_capacity) resize_capacity(m_resize_type(m_capacity));`. -/
def grow_if_full (v : vector α) : Outcome Unit × vector α :=
  if v.m_size = v.m_capacity then resize_capacity (v.m_resize_type v.m_capacity) v
  else (.returned (), v)

/-- The member `add(value)`. -/
def add (value : α) (v : vector α) : Outcome Unit × vector α :=
  andThen (grow_if_full v) fun v1 =>
    match write v1.m_data v1.m_size value with
    | none => (.undefined, v1)
    | some d => (.returned (), { v1 with m_data := d, m_size := v1.m_size + 1 })

/-- The loop of `insert`:
`for (i = m_size; i > index; i--) m_data[i] = std::move(m_data[i - 1]);`
started at `i`. -/
def insert_shift (index : Nat) : Nat → List α → Option (List α)
  | 0, data => some data
  | i + 1, data =>
    if i + 1 > index then
      match read data i with
      | none => none
      | some x =>
        match write data (i + 1) x with
        | none => none
        | some d => insert_shift index i d
    else some data

/-- The member `insert(index, value)`. -/
def insert (index : Nat) (value : α) (v : vector α) : Outcome Unit × vector α :=
  if index > v.m_size then (.thrown (.range_error "Out of Range"), v)
  else
    andThen (grow_if_full v) fun v1 =>
      match insert_shift index v1.m_size v1.m_data with
      | none => (.undefined, v1)
      | some shifted =>
        match write shifted index value with
        | none => (.undefined, v1)
        | some d => (.returned (), { v1 with m_data := d, m_size := v1.m_size + 1 })

/-- The loop of `remove`:
`for (i = index; i < m_size - 1; i++) m_data[i] = std::move(m_data[i + 1]);`
with `n` iterations left and the loop variable at `i`. -/
def remove_shift : Nat → Nat → List α → Option (List α)
  | 0, _, data => some data
  | n + 1, i, data =>
    match read data (i + 1) with
    | none => none
    | some x =>
      match write data i x with
      | none => none
      | some d => remove_shift n (i + 1) d

/-- The member `remove(index)`.  The loop runs for `i = index, ..., m_size - 2`, that is
`m_size - 1 - index` times. -/
def remove (index : Nat) (v : vector α) : Outcome Unit × vector α :=
  if index ≥ v.m_size then (.thrown (.range_error "Index out of bounds"), v)
  else
    match remove_shift (v.m_size - 1 - index) index v.m_data with
    | none => (.undefined, v)
    | some d => (.returned (), { v with m_data := d, m_size := v.m_size - 1 })

/-- The member `clear()`. -/
def clear (v : vector α) : Outcome Unit × vector α :=
  (.returned (), { v with m_data := make_unique α v.m_capacity, m_size := 0 })

/-- The member `size()`. -/
def size (v : vector α) : Nat := v.m_size

/-- The member `capacity()`. -/
def capacity (v : vector α) : Nat := v.m_capacity

/-- The body of the range-for of `vector(std::initializer_list<T>)`: `add` on
every item in order. -/
def add_all : List α → vector α → Outcome Unit × vector α
  | [], v => (.returned (), v)
  | item :: rest, v => andThen (add item v) (add_all rest)

/-- The constructor `vector(std::initializer_list<T> list)`. -/
def ctor_list (InitialCapacity : Nat) (list : List α) : Outcome Unit × vector α :=
  add_all list (ctor InitialCapacity)

/-- The constructor `vector(std::initializer_list<T> list, resize_type resize)`. -/
def ctor_list_resize (InitialCapacity : Nat) (list : List α) (resize : Nat → Nat) :
    Outcome Unit × vector α :=
  andThen (ctor_list InitialCapacity list)
    fun v => (.returned (), { v with m_resize_type := resize })

/-- The loop of `map`: `for (i = 0; i < m_size; i++) func(m_data[i]);` with `n`
iterations left and the loop variable at `i`.  The callable receives a
reference to the slot and may have an effect of its own: it is a function from
the old element and the state `σ` of its captures to the new element and the
new state. -/
def map_loop {σ : Type} (func : α → σ → α × σ) :
    Nat → Nat → List α → σ → Option (List α × σ)
  | 0, _, data, s => some (data, s)
  | n + 1, i, data, s =>
    match read data i with
    | none => none
    | some x =>
      match write data i (func x s).1 with
      | none => none
      | some d => map_loop func n (i + 1) d (func x s).2

/-- The member `map(func)`, together with the state of the captures of `func`. -/
def map {σ : Type} (func : α → σ → α × σ) (v : vector α) (s : σ) :
    Outcome Unit × vector α × σ :=
  match map_loop func v.m_size 0 v.m_data s with
  | none => (.undefined, v, s)
  | some (d, s1) => (.returned (), { v with m_data := d }, s1)

end vector

/-! ## The iterator -/

/-- The private members of `usu::vector<T>::iterator`.  The raw pointer `data`
is the buffer it was created from. -/
structure iterator (α : Type) where
  pos : Nat
  data : List α
  size : Nat

namespace iterator

variable {α : Type}

/-- The constructor `iterator()`. -/
def ctor : iterator α := ⟨0, [], 0⟩

/-- The member `operator++()`. -/
def increment (it : iterator α) : Outcome Unit × iterator α :=
  if it.pos ≥ it.size then (.thrown (.out_of_range "Iterator is outside of range"), it)
  else (.returned (), { it with pos := it.pos + 1 })

/-- The member `operator++(int)`: the step of `operator++()`, returning the iterator as it
was before the step. -/
def post_increment (it : iterator α) : Outcome (iterator α) × iterator α :=
  match it.increment with
  | (.returned _, it1) => (.returned it, it1)
  | (.thrown e, it1) => (.thrown e, it1)
  | (.undefined, it1) => (.undefined, it1)

/-- The member `operator--()`. -/
def decrement (it : iterator α) : Outcome Unit × iterator α :=
  if it.pos = 0 then (.thrown (.out_of_range "Iterator is outside of range"), it)
  else (.returned (), { it with pos := it.pos - 1 })

/-- The member `operator--(int)`: the step of `operator--()`, returning the iterator as it
was before the step. -/
def post_decrement (it : iterator α) : Outcome (iterator α) × iterator α :=
  match it.decrement with
  | (.returned _, it1) => (.returned it, it1)
  | (.thrown e, it1) => (.thrown e, it1)
  | (.undefined, it1) => (.undefined, it1)

/-- The member `operator*()`. -/
def deref (it : iterator α) : Outcome α :=
  match read it.data it.pos with
  | none => .undefined
  | some x => .returned x

/-- The member `operator==`. -/
def eq (a rhs : iterator α) : Bool := decide (a.pos = rhs.pos)

/-- The member `operator!=`. -/
def ne (a rhs : iterator α) : Bool := !(eq a rhs)

end iterator

namespace vector

variable {α : Type}

/-- The member `begin()`. -/
def begin (v : vector α) : iterator α := ⟨0, v.m_data, v.m_size⟩

/-- The member `end()`. -/
def end_ (v : vector α) : iterator α := ⟨v.m_size, v.m_data, v.m_size⟩

end vector

/-- The result of a traversal: the elements visited, the number of advances
made, and the iterator at which the loop stopped. -/
structure Walk (α : Type) where
  visited : List α
  advances : Nat
  stop : iterator α

/-- The client loop `for (; it != last; ++it) visit(*it);`, which dereferences
and then advances while the iterator differs from `last`. -/
def traverse {α : Type} (last : iterator α) (it : iterator α) (visited : List α)
    (advances : Nat) : Outcome (Walk α) :=
  if it.ne last then
    match it.deref with
    | .returned x =>
      match h : it.increment with
      | (.returned _, it1) => traverse last it1 (visited ++ [x]) (advances + 1)
      | (.thrown e, _) => .thrown e
      | (.undefined, _) => .undefined
    | .thrown e => .thrown e
    | .undefined => .undefined
  else .returned ⟨visited, advances, it⟩
termination_by it.size - it.pos
decreasing_by
  unfold iterator.increment at h
  split at h
  · simp at h
  · simp only [Prod.mk.injEq] at h
    obtain ⟨_, h2⟩ := h
    subst h2
    simp only
    omega

/-- A call on an iterator: `operator++()` or `operator--()`. -/
inductive Move where
  | advance
  | retreat
deriving DecidableEq, Repr

/-- One call on an iterator. -/
def iterator.step {α : Type} (m : Move) (it : iterator α) : Outcome Unit × iterator α :=
  match m with
  | .advance => it.increment
  | .retreat => it.decrement

/-- A sequence of calls on an iterator, in order; a caller that catches the
exception of a call goes on with the iterator as that call left it. -/
def iterator.run {α : Type} : List Move → iterator α → iterator α
  | [], it => it
  | m :: ms, it => iterator.run ms (it.step m).2

/-- The number of calls of `resize_capacity` made by `add` on every item in
order: the calls that find `m_size == m_capacity`. -/
def vector.growths {α : Type} [Inhabited α] : List α → vector α → Nat
  | [], _ => 0
  | item :: rest, v =>
    (if v.m_size = v.m_capacity then 1 else 0) + vector.growths rest (v.add item).2

/-! ## Sample values -/

/-- A full buffer holding `10, 20` with the doubling policy. -/
def sample_full : vector Nat :=
  { m_size := 2, m_capacity := 2, m_resize_type := fun c => c * 2, m_data := [10, 20] }

/-- A buffer of four slots holding `10, 20, 30`, with a stale `99` behind the
live range, and the doubling policy. -/
def sample_room : vector Nat :=
  { m_size := 3, m_capacity := 4, m_resize_type := fun c => c * 2, m_data := [10, 20, 30, 99] }

/-- The vector built by the initializer-list constructor from `1, 2, 3` with the
default `InitialCapacity` of ten. -/
def sample_list : vector Nat := (vector.ctor_list 10 [1, 2, 3]).2

/-- A callable for `map` without an effect of its own other than a record of the
call: it replaces the element by `f` of it and updates the state of its
captures by `record`. -/
def pure_call {α σ : Type} (f : α → α) (record : α → σ → σ) (x : α) (s : σ) : α × σ :=
  (f x, record x s)

/-! ## Lemmas on the buffer and the loops -/

section loops

variable {α : Type}

theorem write_eq (data : List α) (i : Nat) (x : α) (h : i < data.length) :
    write data i x = some (data.set i x) := by
  simp [write, h]

/-- Slot `j` after the shifting loop of `insert` started at `i`: the slots in
`(index, i]` hold what their left neighbour held, the others are unchanged. -/
theorem insert_shift_slots (index : Nat) :
    ∀ (i : Nat) (data : List α), i < data.length →
      ∃ r, vector.insert_shift index i data = some r ∧ r.length = data.length ∧
        ∀ j, r[j]? = if index < j ∧ j ≤ i then data[j - 1]? else data[j]? := by
  intro i
  induction i with
  | zero =>
    intro data _
    refine ⟨data, rfl, rfl, fun j => ?_⟩
    have : ¬ (index < j ∧ j ≤ 0) := by omega
    rw [if_neg this]
  | succ i ih =>
    intro data hlen
    by_cases hi : i + 1 > index
    · have hread : read data i = some (data[i]) := by
        simp [read, List.getElem?_eq_getElem (show i < data.length by omega)]
      obtain ⟨r, hr, hrlen, hrs⟩ := ih (data.set (i + 1) data[i]) (by simp; omega)
      refine ⟨r, ?_, by simpa using hrlen, fun j => ?_⟩
      · simp [vector.insert_shift, hi, hread, write_eq _ _ _ hlen, hr]
      · rw [hrs j]
        by_cases h1 : index < j ∧ j ≤ i
        · have h2 : index < j ∧ j ≤ i + 1 := by omega
          rw [if_pos h1, if_pos h2, List.getElem?_set_ne (by omega)]
        · rw [if_neg h1]
          by_cases h3 : j = i + 1
          · subst h3
            have h2 : index < i + 1 ∧ i + 1 ≤ i + 1 := by omega
            rw [if_pos h2, List.getElem?_set_self hlen]
            simp [List.getElem?_eq_getElem (show i < data.length by omega)]
          · have h2 : ¬ (index < j ∧ j ≤ i + 1) := by omega
            rw [if_neg h2, List.getElem?_set_ne (by omega)]
    · refine ⟨data, ?_, rfl, fun j => ?_⟩
      · simp [vector.insert_shift, hi]
      · have : ¬ (index < j ∧ j ≤ i + 1) := by omega
        simp [this]

/-- Slot `j` after `n` iterations of the shifting loop of `remove` started at
`i`: the slots in `[i, i + n)` hold what their right neighbour held, the others
are unchanged. -/
theorem remove_shift_slots :
    ∀ (n i : Nat) (data : List α), i + n < data.length →
      ∃ r, vector.remove_shift n i data = some r ∧ r.length = data.length ∧
        ∀ j, r[j]? = if i ≤ j ∧ j < i + n then data[j + 1]? else data[j]? := by
  intro n
  induction n with
  | zero =>
    intro i data _
    refine ⟨data, rfl, rfl, fun j => ?_⟩
    have : ¬ (i ≤ j ∧ j < i + 0) := by omega
    rw [if_neg this]
  | succ n ih =>
    intro i data hlen
    have hread : read data (i + 1) = some (data[i + 1]) := by
      simp [read, List.getElem?_eq_getElem (show i + 1 < data.length by omega)]
    obtain ⟨r, hr, hrlen, hrs⟩ := ih (i + 1) (data.set i data[i + 1]) (by simp; omega)
    refine ⟨r, ?_, by simpa using hrlen, fun j => ?_⟩
    · simp [vector.remove_shift, hread, write_eq _ _ _ (show i < data.length by omega), hr]
    · rw [hrs j]
      by_cases h1 : i + 1 ≤ j ∧ j < i + 1 + n
      · have h2 : i ≤ j ∧ j < i + (n + 1) := by omega
        rw [if_pos h1, if_pos h2, List.getElem?_set_ne (by omega)]
      · rw [if_neg h1]
        by_cases h3 : j = i
        · subst h3
          have h2 : j ≤ j ∧ j < j + (n + 1) := by omega
          rw [if_pos h2, List.getElem?_set_self (show j < data.length by omega)]
          simp [List.getElem?_eq_getElem (show j + 1 < data.length by omega)]
        · have h2 : ¬ (i ≤ j ∧ j < i + (n + 1)) := by omega
          rw [if_neg h2, List.getElem?_set_ne (by omega)]

theorem live_length (v : vector α) (hwf : v.wf) : v.live.length = v.m_size := by
  unfold vector.live
  rw [List.length_take]
  have := hwf.1
  have := hwf.2
  omega

theorem live_slot (v : vector α) (j : Nat) :
    v.live[j]? = if j < v.m_size then v.m_data[j]? else none := by
  unfold vector.live
  rw [List.getElem?_take]

/-- Slot `j` of a list with `x` spliced in at position `i`. -/
theorem splice_slot (l : List α) (i : Nat) (x : α) (hi : i ≤ l.length) (j : Nat) :
    (l.take i ++ [x] ++ l.drop i)[j]? =
      if j < i then l[j]? else if j = i then some x else l[j - 1]? := by
  have hlen : (l.take i).length = i := by simp; omega
  rw [List.append_assoc]
  by_cases h1 : j < i
  · rw [if_pos h1, List.getElem?_append_left (by omega), List.getElem?_take_of_lt h1]
  · rw [if_neg h1, List.getElem?_append_right (by omega), hlen]
    by_cases h2 : j = i
    · subst h2
      simp
    · rw [if_neg h2]
      obtain ⟨k, hk⟩ : ∃ k, j = i + (k + 1) := ⟨j - i - 1, by omega⟩
      subst hk
      have e1 : i + (k + 1) - i = k + 1 := by omega
      have e2 : i + (k + 1) - 1 = i + k := by omega
      rw [e1, e2]
      simp [List.getElem?_drop]

/-- Slot `j` of a list with position `i` deleted. -/
theorem erase_slot (l : List α) (i : Nat) (j : Nat) :
    (l.take i ++ l.drop (i + 1))[j]? = if j < i then l[j]? else l[j + 1]? := by
  rw [← List.eraseIdx_eq_take_drop_succ, List.getElem?_eraseIdx]

end loops

/-! ## Lemmas on the member functions -/

section members

variable {α : Type} [Inhabited α]

theorem resize_capacity_eq (v : vector α) (c : Nat) (hwf : v.wf) (hc : v.m_size ≤ c) :
    v.resize_capacity c =
      (.returned (),
        { v with
          m_data := v.m_data.take v.m_size ++ List.replicate (c - v.m_size) default
          m_capacity := c }) := by
  have h1 : v.m_size ≤ v.m_data.length := by
    have := hwf.1
    have := hwf.2
    omega
  simp [vector.resize_capacity, std_move, make_unique, h1, hc]

/-- The conditional growth returns, keeps length, policy and live slots, and
leaves room for one more element. -/
theorem grow_if_full_spec (v : vector α) (hwf : v.wf)
    (hg : v.m_size = v.m_capacity → v.m_capacity < v.m_resize_type v.m_capacity) :
    ∃ v1, v.grow_if_full = (.returned (), v1) ∧ v1.m_size = v.m_size ∧
      v1.m_resize_type = v.m_resize_type ∧
      v1.m_capacity =
        (if v.m_size = v.m_capacity then v.m_resize_type v.m_capacity else v.m_capacity) ∧
      v1.m_data.length = v1.m_capacity ∧ v1.m_size < v1.m_capacity ∧
      ∀ j, j < v.m_size → v1.m_data[j]? = v.m_data[j]? := by
  by_cases hfull : v.m_size = v.m_capacity
  · have hlt := hg hfull
    refine ⟨{ v with
        m_data := v.m_data.take v.m_size ++
          List.replicate (v.m_resize_type v.m_capacity - v.m_size) default
        m_capacity := v.m_resize_type v.m_capacity }, ?_, ?_, ?_, ?_, ?_, ?_, ?_⟩
    · unfold vector.grow_if_full
      rw [if_pos hfull, resize_capacity_eq v _ hwf (by omega)]
    · rfl
    · rfl
    · simp [hfull]
    · have := hwf.2
      simp
      omega
    · simp
      omega
    · intro j hj
      have := hwf.2
      simp only
      rw [List.getElem?_append_left (by simp; omega), List.getElem?_take_of_lt hj]
  · refine ⟨v, ?_, rfl, rfl, ?_, hwf.2, ?_, fun _ _ => rfl⟩
    · unfold vector.grow_if_full
      rw [if_neg hfull]
    · simp [hfull]
    · have := hwf.1
      omega

/-- What `add` does on a well-formed vector whose policy grows a full buffer. -/
theorem add_spec (v : vector α) (x : α) (hwf : v.wf)
    (hg : v.m_size = v.m_capacity → v.m_capacity < v.m_resize_type v.m_capacity) :
    ∃ w, v.add x = (.returned (), w) ∧ w.m_size = v.m_size + 1 ∧
      w.m_resize_type = v.m_resize_type ∧
      w.m_capacity =
        (if v.m_size = v.m_capacity then v.m_resize_type v.m_capacity else v.m_capacity) ∧
      w.wf ∧ w.live = v.live ++ [x] := by
  obtain ⟨v1, h1, hsz, hpol, hcap, hlen, hroom, hslots⟩ := grow_if_full_spec v hwf hg
  have hw : write v1.m_data v1.m_size x = some (v1.m_data.set v1.m_size x) :=
    write_eq _ _ _ (by omega)
  refine ⟨{ v1 with m_data := v1.m_data.set v1.m_size x, m_size := v1.m_size + 1 },
    ?_, ?_, hpol, hcap, ?_, ?_⟩
  · simp [vector.add, h1, andThen, hw]
  · simp [hsz]
  · constructor
    · simp only
      omega
    · simpa using hlen
  · apply List.ext_getElem?
    intro j
    rw [live_slot, List.getElem?_append, live_length v hwf, live_slot]
    simp only [hsz]
    by_cases hj : j < v.m_size
    · have hj2 : j < v.m_size + 1 := by omega
      rw [if_pos hj2, if_pos hj, if_pos hj, List.getElem?_set_ne (by omega), hslots j hj]
    · rw [if_neg hj]
      by_cases hj3 : j = v.m_size
      · subst hj3
        rw [if_pos (by omega), List.getElem?_set_self (by omega)]
        simp
      · rw [if_neg (by omega)]
        rw [List.getElem?_eq_none (by simp; omega)]

/-- What `insert` does at a valid position of a well-formed vector whose policy
grows a full buffer. -/
theorem insert_spec (v : vector α) (i : Nat) (x : α) (hwf : v.wf)
    (hg : v.m_size = v.m_capacity → v.m_capacity < v.m_resize_type v.m_capacity)
    (hi : i ≤ v.m_size) :
    ∃ w, v.insert i x = (.returned (), w) ∧ w.m_size = v.m_size + 1 ∧
      w.m_resize_type = v.m_resize_type ∧
      w.m_capacity =
        (if v.m_size = v.m_capacity then v.m_resize_type v.m_capacity else v.m_capacity) ∧
      w.wf ∧ w.live = v.live.take i ++ [x] ++ v.live.drop i := by
  obtain ⟨v1, h1, hsz, hpol, hcap, hlen, hroom, hslots⟩ := grow_if_full_spec v hwf hg
  obtain ⟨r, hr, hrlen, hrs⟩ := insert_shift_slots i v1.m_size v1.m_data (by omega)
  have hw : write r i x = some (r.set i x) := write_eq _ _ _ (by omega)
  refine ⟨{ v1 with m_data := r.set i x, m_size := v1.m_size + 1 }, ?_, ?_, hpol, hcap, ?_, ?_⟩
  · unfold vector.insert
    rw [if_neg (by omega), h1]
    simp [andThen, hr, hw]
  · simp [hsz]
  · constructor
    · simp only
      omega
    · simp only [List.length_set]
      omega
  · apply List.ext_getElem?
    intro j
    rw [live_slot, splice_slot _ _ _ (by rw [live_length v hwf]; exact hi)]
    simp only [hsz]
    by_cases h1 : j < i
    · rw [if_pos (by omega), if_pos h1, List.getElem?_set_ne (by omega), hrs j,
        if_neg (by omega), hslots j (by omega), live_slot, if_pos (by omega)]
    · rw [if_neg h1]
      by_cases h2 : j = i
      · subst h2
        rw [if_pos (by omega), if_pos rfl, List.getElem?_set_self (by omega)]
      · rw [if_neg h2, live_slot]
        by_cases h3 : j < v.m_size + 1
        · rw [if_pos h3, if_pos (by omega), List.getElem?_set_ne (by omega), hrs j,
            if_pos (by omega), hslots (j - 1) (by omega)]
        · rw [if_neg h3, if_neg (by omega)]

/-- Running `add` over two lists in a row. -/
theorem add_all_append (pre post : List α) (v : vector α) :
    vector.add_all (pre ++ post) v = andThen (vector.add_all pre v) (vector.add_all post) := by
  induction pre generalizing v with
  | nil => simp [vector.add_all, andThen]
  | cons x pre ih =>
    simp only [List.cons_append, vector.add_all]
    rcases hx : v.add x with ⟨o, w⟩
    cases o with
    | returned u => simp only [andThen]; exact ih w
    | thrown e => simp [andThen]
    | undefined => simp [andThen]

/-- What a run of `add` does on a well-formed vector whose policy grows every
capacity from the current one on. -/
theorem add_all_spec (vs : List α) :
    ∀ (v : vector α), v.wf → (∀ c, v.m_capacity ≤ c → c < v.m_resize_type c) →
      ∃ w, vector.add_all vs v = (.returned (), w) ∧ w.m_size = v.m_size + vs.length ∧
        w.m_resize_type = v.m_resize_type ∧ v.m_capacity ≤ w.m_capacity ∧
        w.wf ∧ w.live = v.live ++ vs := by
  induction vs with
  | nil =>
    intro v hwf _
    exact ⟨v, rfl, by simp, rfl, Nat.le_refl _, hwf, by simp⟩
  | cons x vs ih =>
    intro v hwf hg
    obtain ⟨u, hu, husz, hupol, hucap, huwf, hulive⟩ :=
      add_spec v x hwf (fun _ => hg _ (Nat.le_refl _))
    have hle : v.m_capacity ≤ u.m_capacity := by
      rw [hucap]
      split
      · exact Nat.le_of_lt (hg _ (Nat.le_refl _))
      · exact Nat.le_refl _
    obtain ⟨w, hw, hwsz, hwpol, hwcap, hwwf, hwlive⟩ :=
      ih u huwf (fun c hc => by rw [hupol]; exact hg c (by omega))
    refine ⟨w, ?_, ?_, ?_, ?_, hwwf, ?_⟩
    · simp [vector.add_all, hu, andThen, hw]
    · rw [hwsz, husz, List.length_cons]
      omega
    · rw [hwpol, hupol]
    · omega
    · rw [hwlive, hulive]
      simp

theorem ctor_wf (InitialCapacity : Nat) : (vector.ctor InitialCapacity : vector α).wf := by
  simp [vector.wf, vector.ctor, make_unique]

theorem ctor_live (InitialCapacity : Nat) : (vector.ctor InitialCapacity : vector α).live = [] := by
  simp [vector.live, vector.ctor]

/-- The conditional growth leaves the live sequence as it is. -/
theorem grow_if_full_live (v : vector α) (hwf : v.wf)
    (hg : v.m_size = v.m_capacity → v.m_capacity < v.m_resize_type v.m_capacity) :
    (v.grow_if_full).2.live = v.live := by
  obtain ⟨v1, h1, hsz, _, _, _, _, hslots⟩ := grow_if_full_spec v hwf hg
  rw [h1]
  apply List.ext_getElem?
  intro j
  rw [live_slot, live_slot]
  simp only [hsz]
  by_cases hj : j < v.m_size
  · rw [if_pos hj, if_pos hj, hslots j hj]
  · rw [if_neg hj, if_neg hj]

/-- The capacity after a run of `add` on an empty vector built with the policy
`c → c + 5`, for runs of at most `InitialCapacity + 10` calls. -/
theorem plus_five_run (InitialCapacity : Nat) (vs : List α) :
    vs.length ≤ InitialCapacity + 10 →
      ∃ w, vector.add_all vs (vector.ctor_resize InitialCapacity (fun c => c + 5)) =
          (.returned (), w) ∧
        w.m_size = vs.length ∧ w.wf ∧ w.m_resize_type = (fun c => c + 5) ∧
        w.m_capacity =
          (if vs.length ≤ InitialCapacity then InitialCapacity
           else if vs.length ≤ InitialCapacity + 5 then InitialCapacity + 5
           else InitialCapacity + 10) := by
  induction vs using List.reverseRecOn with
  | nil =>
    intro _
    refine ⟨_, rfl, rfl, ?_, rfl, ?_⟩
    · simp [vector.wf, vector.ctor_resize, vector.ctor, make_unique]
    · simp [vector.ctor_resize, vector.ctor]
  | append_singleton vs x ih =>
    intro hk
    rw [List.length_append, List.length_singleton] at hk
    obtain ⟨w, hw, hwsz, hwwf, hwpol, hwcap⟩ := ih (by omega)
    obtain ⟨t, ht, htsz, htpol, htcap, htwf, _⟩ :=
      add_spec w x hwwf (fun _ => by simp only [hwpol]; omega)
    refine ⟨t, ?_, ?_, htwf, by rw [htpol, hwpol], ?_⟩
    · rw [add_all_append, hw]
      simp [andThen, vector.add_all, ht]
    · rw [htsz, hwsz, List.length_append, List.length_singleton]
    · simp only [htcap, hwpol, hwsz, hwcap, List.length_append, List.length_singleton]
      split_ifs <;> omega

/-- The count of growths over two lists in a row. -/
theorem growths_append (pre post : List α) :
    ∀ (v : vector α), v.wf → (∀ c, v.m_capacity ≤ c → c < v.m_resize_type c) →
      vector.growths (pre ++ post) v =
        vector.growths pre v + vector.growths post (vector.add_all pre v).2 := by
  induction pre with
  | nil =>
    intro v _ _
    simp [vector.growths, vector.add_all]
  | cons x pre ih =>
    intro v hwf hg
    obtain ⟨u, hu, _, hupol, hucap, huwf, _⟩ :=
      add_spec v x hwf (fun _ => hg _ (Nat.le_refl _))
    have hle : v.m_capacity ≤ u.m_capacity := by
      rw [hucap]
      split
      · exact Nat.le_of_lt (hg _ (Nat.le_refl _))
      · exact Nat.le_refl _
    have hstep := ih u huwf (fun c hc => by rw [hupol]; exact hg c (by omega))
    rw [List.cons_append]
    show (if v.m_size = v.m_capacity then 1 else 0) +
        vector.growths (pre ++ post) (v.add x).2 =
      ((if v.m_size = v.m_capacity then 1 else 0) + vector.growths pre (v.add x).2) +
        vector.growths post (andThen (v.add x) (vector.add_all pre)).2
    rw [hu]
    simp only [andThen]
    rw [hstep]
    omega

/-- The capacity and the count of growths after a run of `add` on a
default-constructed vector. -/
theorem doubling_run (InitialCapacity : Nat) (hIC : 1 ≤ InitialCapacity) (vs : List α) :
    ∃ w k, vector.add_all vs (vector.ctor InitialCapacity) = (.returned (), w) ∧
      w.m_size = vs.length ∧ w.wf ∧ w.m_resize_type = (fun c => c * 2) ∧
      w.m_capacity = InitialCapacity * 2 ^ k ∧ vs.length ≤ InitialCapacity * 2 ^ k ∧
      (∀ j, j < k → InitialCapacity * 2 ^ j < vs.length) ∧
      vector.growths vs (vector.ctor InitialCapacity : vector α) = k := by
  have hpol : ∀ c, (vector.ctor InitialCapacity : vector α).m_capacity ≤ c →
      c < (vector.ctor InitialCapacity : vector α).m_resize_type c := by
    intro c hc
    simp only [vector.ctor] at hc ⊢
    omega
  induction vs using List.reverseRecOn with
  | nil =>
    refine ⟨_, 0, rfl, rfl, ctor_wf InitialCapacity, rfl, ?_, ?_, ?_, rfl⟩
    · simp [vector.ctor]
    · simp
    · intro j hj
      omega
  | append_singleton vs x ih =>
    obtain ⟨w, k, hw, hwsz, hwwf, hwpol, hwcap, hwle, hwleast, hwgrow⟩ := ih
    have hpos : 1 ≤ InitialCapacity * 2 ^ k :=
      Nat.mul_pos hIC (Nat.two_pow_pos k)
    obtain ⟨t, ht, htsz, htpol, htcap, htwf, _⟩ :=
      add_spec w x hwwf (fun _ => by simp only [hwpol]; omega)
    have hrun : vector.add_all (vs ++ [x]) (vector.ctor InitialCapacity) =
        (.returned (), t) := by
      rw [add_all_append, hw]
      simp [andThen, vector.add_all, ht]
    have hcount : vector.growths (vs ++ [x]) (vector.ctor InitialCapacity : vector α) =
        k + (if w.m_size = w.m_capacity then 1 else 0) := by
      rw [growths_append vs [x] _ (ctor_wf InitialCapacity) hpol, hwgrow, hw]
      simp [vector.growths]
    by_cases hfull : w.m_size = w.m_capacity
    · refine ⟨t, k + 1, hrun, ?_, htwf, by rw [htpol, hwpol], ?_, ?_, ?_, ?_⟩
      · rw [htsz, hwsz, List.length_append, List.length_singleton]
      · rw [htcap, if_pos hfull]
        simp only [hwpol, hwcap, Nat.pow_succ, Nat.mul_assoc]
      · rw [List.length_append, List.length_singleton, Nat.pow_succ, ← Nat.mul_assoc]
        omega
      · intro j hj
        rw [List.length_append, List.length_singleton]
        by_cases hjk : j < k
        · have := hwleast j hjk
          omega
        · have hjk2 : j = k := by omega
          subst hjk2
          omega
      · rw [hcount, if_pos hfull]
    · refine ⟨t, k, hrun, ?_, htwf, by rw [htpol, hwpol], ?_, ?_, ?_, ?_⟩
      · rw [htsz, hwsz, List.length_append, List.length_singleton]
      · rw [htcap, if_neg hfull, hwcap]
      · rw [List.length_append, List.length_singleton]
        have := hwwf.1
        omega
      · intro j hj
        rw [List.length_append, List.length_singleton]
        have := hwleast j hj
        omega
      · rw [hcount, if_neg hfull, Nat.add_zero]

/-- What `vector(size_type)` does when `size * 2` is not formed or does not
leave the range of `size_type`. -/
theorem ctor_size_in_range (InitialCapacity size : Nat)
    (h : size ≤ InitialCapacity ∨ size * 2 < SIZE_MOD) :
    ∃ w : vector α, vector.ctor_size InitialCapacity size = (.returned (), w) ∧
      w.m_size = size ∧
      w.m_capacity = (if size > InitialCapacity then size * 2 else InitialCapacity) ∧
      w.wf ∧ w.live = List.replicate size default := by
  have hc : (if size > InitialCapacity then size * 2 % SIZE_MOD else InitialCapacity) =
      (if size > InitialCapacity then size * 2 else InitialCapacity) := by
    split
    · rcases h with h | h
      · omega
      · exact Nat.mod_eq_of_lt h
    · rfl
  have hle : size ≤ (if size > InitialCapacity then size * 2 else InitialCapacity) := by
    split <;> omega
  have hres := resize_capacity_eq (vector.ctor InitialCapacity : vector α)
    (if size > InitialCapacity then size * 2 else InitialCapacity) (ctor_wf InitialCapacity)
    (Nat.zero_le _)
  refine ⟨{ m_size := size
            m_capacity := if size > InitialCapacity then size * 2 else InitialCapacity
            m_resize_type := fun currentCapacity => currentCapacity * 2
            m_data := List.replicate
              (if size > InitialCapacity then size * 2 else InitialCapacity) default },
    ?_, rfl, rfl, ?_, ?_⟩
  · unfold vector.ctor_size
    rw [hc, hres]
    simp [andThen, vector.ctor]
  · constructor
    · exact hle
    · simp
  · simp only [vector.live, List.take_replicate]
    rw [Nat.min_eq_left hle]

end members

section plain

variable {α : Type}

/-- What `remove` does at a valid position of a well-formed vector. -/
theorem remove_spec (v : vector α) (i : Nat) (hwf : v.wf) (hi : i < v.m_size) :
    ∃ w, v.remove i = (.returned (), w) ∧ w.m_size = v.m_size - 1 ∧
      w.m_resize_type = v.m_resize_type ∧ w.m_capacity = v.m_capacity ∧
      w.wf ∧ w.live = v.live.take i ++ v.live.drop (i + 1) := by
  have h1 := hwf.1
  have h2 := hwf.2
  obtain ⟨r, hr, hrlen, hrs⟩ :=
    remove_shift_slots (v.m_size - 1 - i) i v.m_data (by omega)
  refine ⟨{ v with m_data := r, m_size := v.m_size - 1 }, ?_, rfl, rfl, rfl, ?_, ?_⟩
  · unfold vector.remove
    rw [if_neg (by omega)]
    simp [hr]
  · constructor
    · simp only
      omega
    · simp only
      omega
  · apply List.ext_getElem?
    intro j
    rw [live_slot, erase_slot, live_slot, live_slot]
    simp only
    rw [hrs j]
    by_cases h3 : j < i
    · rw [if_pos (by omega), if_neg (by omega), if_pos h3, if_pos (by omega)]
    · rw [if_neg h3]
      by_cases h4 : j < v.m_size - 1
      · rw [if_pos h4, if_pos (by omega), if_pos (by omega)]
      · rw [if_neg h4, if_neg (by omega)]

/-- What `operator[]` returns below the length of a well-formed vector. -/
theorem index_spec (v : vector α) (i : Nat) (hwf : v.wf) (hi : i < v.m_size) :
    ∃ x, v.live[i]? = some x ∧ v.index i = (.returned x, v) := by
  have h1 := hwf.1
  have h2 := hwf.2
  have hlt : i < v.m_data.length := by omega
  refine ⟨v.m_data[i], ?_, ?_⟩
  · rw [live_slot, if_pos hi, List.getElem?_eq_getElem hlt]
  · unfold vector.index
    rw [if_neg (by omega)]
    simp [read, List.getElem?_eq_getElem hlt]

/-- The conditional growth never throws. -/
theorem grow_if_full_no_throw [Inhabited α] (v : vector α) (e : Exception) :
    (v.grow_if_full).1 ≠ .thrown e := by
  unfold vector.grow_if_full vector.resize_capacity
  split
  · simp only
    split <;> simp
  · simp

/-- The second step of a sequence cannot turn an outcome into a throw unless
one of the two steps throws. -/
theorem andThen_thrown {β : Type} (r : Outcome Unit × vector α)
    (k : vector α → Outcome β × vector α) (e : Exception)
    (hr : r.1 ≠ .thrown e) (hk : ∀ w, (k w).1 ≠ .thrown e) : (andThen r k).1 ≠ .thrown e := by
  rcases r with ⟨o, w⟩
  cases o with
  | returned u => exact hk w
  | thrown e2 =>
    simpa [andThen] using hr
  | undefined => simp [andThen]

/-- The loop of `map` over the slots `todo` that follow the slots `done`. -/
theorem map_loop_spec {α σ : Type} (f : α → α) (record : α → σ → σ) (rest : List α) :
    ∀ (todo done : List α) (s : σ),
      vector.map_loop (pure_call f record) todo.length done.length (done ++ todo ++ rest) s =
        some (done ++ todo.map f ++ rest, todo.foldl (fun s x => record x s) s) := by
  intro todo
  induction todo with
  | nil =>
    intro done s
    simp [vector.map_loop]
  | cons x todo ih =>
    intro done s
    have hlt : done.length < (done ++ x :: todo ++ rest).length := by
      simp only [List.length_append, List.length_cons]
      omega
    have hread : read (done ++ x :: todo ++ rest) done.length = some x := by
      unfold read
      rw [List.append_assoc, List.getElem?_append_right (Nat.le_refl _), Nat.sub_self]
      simp
    have hset : (done ++ x :: todo ++ rest).set done.length (f x) =
        (done ++ [f x]) ++ todo ++ rest := by
      simp [List.append_assoc]
    have hstep := ih (done ++ [f x]) (record x s)
    rw [List.length_append, List.length_singleton] at hstep
    simp only [List.length_cons, vector.map_loop, hread, pure_call, write_eq _ _ _ hlt, hset]
    rw [hstep]
    simp [List.append_assoc]

/-- What `map` does on a well-formed vector for a callable without an effect
other than its record. -/
theorem map_spec {α σ : Type} (v : vector α) (hwf : v.wf) (f : α → α) (record : α → σ → σ)
    (s : σ) :
    v.map (pure_call f record) s =
      (.returned (), { v with m_data := v.live.map f ++ v.m_data.drop v.m_size },
        v.live.foldl (fun s x => record x s) s) := by
  have hlen := live_length v hwf
  have h := map_loop_spec f record (v.m_data.drop v.m_size) v.live [] s
  rw [hlen] at h
  simp only [List.nil_append, List.length_nil] at h
  have hd : v.live ++ v.m_data.drop v.m_size = v.m_data := List.take_append_drop _ _
  rw [hd] at h
  simp only [vector.map, h]
/-- The client loop started `k` slots before the bound of the iterator. -/
theorem traverse_spec {α : Type} (last : iterator α) :
    ∀ (k : Nat) (it : iterator α) (acc : List α) (n : Nat),
      last.pos = it.size → it.size ≤ it.data.length → it.pos + k = it.size →
        traverse last it acc n =
          .returned ⟨acc ++ (it.data.drop it.pos).take k, n + k, { it with pos := it.size }⟩ := by
  intro k
  induction k with
  | zero =>
    intro it acc n hlast _ hpos
    have hp : it.pos = it.size := by omega
    have heq : it.ne last = false := by simp [iterator.ne, iterator.eq, hlast, hp]
    rw [traverse, if_neg (by simp [heq])]
    obtain ⟨p, d, sz⟩ := it
    simp only at hp
    subst hp
    simp
  | succ k ih =>
    intro it acc n hlast hlen hpos
    have hlt : it.pos < it.data.length := by omega
    have hne : it.ne last = true := by
      simp [iterator.ne, iterator.eq, hlast]
      omega
    have hderef : it.deref = .returned (it.data[it.pos]) := by
      simp [iterator.deref, read, List.getElem?_eq_getElem hlt]
    have hinc : it.increment = (.returned (), { it with pos := it.pos + 1 }) := by
      unfold iterator.increment
      rw [if_neg (by omega)]
    rw [traverse]
    simp only [hne, if_true, hderef]
    split
    · rename_i u it1 heq
      rw [hinc] at heq
      simp only [Prod.mk.injEq] at heq
      obtain ⟨_, h2⟩ := heq
      subst h2
      rw [ih _ _ _ (by simpa using hlast) (by simpa using hlen) (by simp only; omega)]
      simp only [List.drop_eq_getElem_cons hlt, List.take_succ_cons, List.append_assoc,
        List.singleton_append]
      congr 2
      omega
    · rename_i e it1 heq
      rw [hinc] at heq
      simp at heq
    · rename_i it1 heq
      rw [hinc] at heq
      simp at heq
/-- The client loop from `begin()` to `end()` of a well-formed vector. -/
theorem traverse_all {α : Type} (v : vector α) (hwf : v.wf) :
    traverse v.end_ v.begin [] 0 = .returned ⟨v.live, v.m_size, v.end_⟩ := by
  have h1 := hwf.1
  have h2 := hwf.2
  have h := traverse_spec v.end_ v.m_size v.begin [] 0 rfl
    (by simp only [vector.begin]; omega) (by simp [vector.begin])
  rw [h]
  simp [vector.begin, vector.end_, vector.live]

/-- The shifting loop of `insert` does nothing when started at the position of
the insertion. -/
theorem insert_shift_at_index {α : Type} (index : Nat) (data : List α) :
    vector.insert_shift index index data = some data := by
  cases index with
  | zero => rfl
  | succ i => simp [vector.insert_shift]

/-- Deleting the element spliced in at position `i` gives the list back. -/
theorem erase_splice {α : Type} (l : List α) (i : Nat) (x : α) (hi : i ≤ l.length) :
    (l.take i ++ [x] ++ l.drop i).take i ++ (l.take i ++ [x] ++ l.drop i).drop (i + 1) = l := by
  have hlen : (l.take i).length = i := by
    rw [List.length_take]
    omega
  rw [List.append_assoc, List.take_left' hlen]
  have hdrop : (l.take i ++ ([x] ++ l.drop i)).drop (i + 1) = l.drop i := by
    have h2 : (l.take i ++ [x]).length = i + 1 := by
      rw [List.length_append, hlen, List.length_singleton]
    rw [← List.append_assoc]
    exact List.drop_left' h2
  rw [hdrop]
  exact List.take_append_drop i l

end plain

section invariants

variable {α : Type} [Inhabited α]

/-- The representation invariant is kept, and the capacity is not reduced, by
every member function, on a vector whose policy returns more than the current
capacity. -/
theorem wf_preserved (v : vector α) (hwf : v.wf)
    (hg : v.m_capacity < v.m_resize_type v.m_capacity) (i : Nat) (x : α) :
    ((v.add x).2.wf ∧ v.m_capacity ≤ (v.add x).2.m_capacity) ∧
    ((v.insert i x).2.wf ∧ v.m_capacity ≤ (v.insert i x).2.m_capacity) ∧
    ((v.remove i).2.wf ∧ v.m_capacity = (v.remove i).2.m_capacity) ∧
    ((v.clear).2.wf ∧ v.m_capacity = (v.clear).2.m_capacity) ∧
    ((v.index i).2 = v) := by
  have hmono : v.m_capacity ≤
      (if v.m_size = v.m_capacity then v.m_resize_type v.m_capacity else v.m_capacity) := by
    split <;> omega
  refine ⟨?_, ?_, ?_, ?_, ?_⟩
  · obtain ⟨w, hw, _, _, hcap, hwwf, _⟩ := add_spec v x hwf (fun _ => hg)
    rw [hw]
    exact ⟨hwwf, by simp only [hcap]; exact hmono⟩
  · by_cases hi : i ≤ v.m_size
    · obtain ⟨w, hw, _, _, hcap, hwwf, _⟩ := insert_spec v i x hwf (fun _ => hg) hi
      rw [hw]
      exact ⟨hwwf, by simp only [hcap]; exact hmono⟩
    · unfold vector.insert
      rw [if_pos (by omega)]
      exact ⟨hwf, Nat.le_refl _⟩
  · by_cases hi : i < v.m_size
    · obtain ⟨w, hw, _, _, hcap, hwwf, _⟩ := remove_spec v i hwf hi
      rw [hw]
      exact ⟨hwwf, hcap.symm⟩
    · unfold vector.remove
      rw [if_pos (by omega)]
      exact ⟨hwf, rfl⟩
  · refine ⟨?_, rfl⟩
    simp [vector.wf, vector.clear, make_unique]
  · unfold vector.index
    split
    · rfl
    · split <;> rfl

end invariants

/-! ## The claims -/

/-- C1: on every well-formed vector whose growth policy returns a value
strictly larger than the current capacity, `insert(i, x)` returns if and only if
`i ≤ length` and throws `range_error` otherwise; when it returns, the live
sequence is the old one with `x` spliced in at `i` (slots below `i` untouched,
every old element at an index `≥ i` one slot higher) and the length is larger
by exactly one.  The statement covers the full and the non-full buffer. -/
theorem insert_splices_at_index {α : Type} [Inhabited α] (v : vector α) (i : Nat) (x : α)
    (hwf : v.wf) (hg : v.m_capacity < v.m_resize_type v.m_capacity) :
    ((v.insert i x).1 = .returned () ↔ i ≤ v.m_size) ∧
    (¬ i ≤ v.m_size → (v.insert i x).1 = .thrown (.range_error "Out of Range")) ∧
    (i ≤ v.m_size →
      (v.insert i x).2.live = v.live.take i ++ [x] ++ v.live.drop i ∧
      (∀ j, j < i → (v.insert i x).2.live[j]? = v.live[j]?) ∧
      (v.insert i x).2.live[i]? = some x ∧
      (∀ j, i ≤ j → (v.insert i x).2.live[j + 1]? = v.live[j]?) ∧
      (v.insert i x).2.m_size = v.m_size + 1 ∧
      (v.insert i x).2.live.length = v.live.length + 1) := by
  refine ⟨?_, ?_, ?_⟩
  · constructor
    · intro h
      by_contra hc
      unfold vector.insert at h
      rw [if_pos (by omega)] at h
      simp at h
    · intro hi
      obtain ⟨w, hw, _⟩ := insert_spec v i x hwf (fun _ => hg) hi
      rw [hw]
  · intro hc
    unfold vector.insert
    rw [if_pos (by omega)]
  · intro hi
    obtain ⟨w, hw, hsz, _, _, hwwf, hlive⟩ := insert_spec v i x hwf (fun _ => hg) hi
    have hlen := live_length v hwf
    rw [hw]
    refine ⟨hlive, ?_, ?_, ?_, hsz, ?_⟩
    · intro j hj
      simp only [hlive]
      rw [splice_slot _ _ _ (by omega), if_pos hj]
    · simp only [hlive]
      rw [splice_slot _ _ _ (by omega), if_neg (by omega), if_pos rfl]
    · intro j hj
      simp only [hlive]
      rw [splice_slot _ _ _ (by omega), if_neg (by omega), if_neg (by omega)]
      simp
    · simp only
      rw [live_length w hwwf, hsz, hlen]

/-- C1 at a full buffer: inserting `7` at position `1` of `10, 20`. -/
theorem insert_splices_at_index_witness :
    sample_full.wf ∧ sample_full.m_capacity < sample_full.m_resize_type sample_full.m_capacity ∧
    1 ≤ sample_full.m_size ∧
    (sample_full.insert 1 7).2.live = sample_full.live.take 1 ++ [7] ++ sample_full.live.drop 1 :=
  ⟨by decide, by decide, by decide,
    ((insert_splices_at_index sample_full 1 7 (by decide) (by decide)).2.2 (by decide)).1⟩

/-- C2: on every well-formed vector, `remove(i)` returns if and only if
`i < length` and throws `range_error` otherwise; when it returns, the live
sequence is the old one with exactly position `i` deleted (slots below `i`
untouched, every later element one slot lower), the length is smaller by
exactly one, and the capacity is unchanged. -/
theorem remove_deletes_at_index {α : Type} (v : vector α) (i : Nat) (hwf : v.wf) :
    ((v.remove i).1 = .returned () ↔ i < v.m_size) ∧
    (¬ i < v.m_size → (v.remove i).1 = .thrown (.range_error "Index out of bounds")) ∧
    (i < v.m_size →
      (v.remove i).2.live = v.live.take i ++ v.live.drop (i + 1) ∧
      (∀ j, j < i → (v.remove i).2.live[j]? = v.live[j]?) ∧
      (∀ j, i ≤ j → (v.remove i).2.live[j]? = v.live[j + 1]?) ∧
      (v.remove i).2.m_size + 1 = v.m_size ∧
      (v.remove i).2.live.length + 1 = v.live.length ∧
      (v.remove i).2.m_capacity = v.m_capacity) := by
  refine ⟨?_, ?_, ?_⟩
  · constructor
    · intro h
      by_contra hc
      unfold vector.remove at h
      rw [if_pos (by omega)] at h
      simp at h
    · intro hi
      obtain ⟨w, hw, _⟩ := remove_spec v i hwf hi
      rw [hw]
  · intro hc
    unfold vector.remove
    rw [if_pos (by omega)]
  · intro hi
    obtain ⟨w, hw, hsz, _, hcap, hwwf, hlive⟩ := remove_spec v i hwf hi
    have hlen := live_length v hwf
    rw [hw]
    refine ⟨hlive, ?_, ?_, ?_, ?_, hcap⟩
    · intro j hj
      simp only [hlive]
      rw [erase_slot, if_pos hj]
    · intro j hj
      simp only [hlive]
      rw [erase_slot, if_neg (by omega)]
    · simp only
      omega
    · simp only
      rw [live_length w hwwf, hsz, hlen]
      omega

/-- C2 on `10, 20, 30`: removing position `1`. -/
theorem remove_deletes_at_index_witness :
    sample_room.wf ∧ 1 < sample_room.m_size ∧
    (sample_room.remove 1).2.live = sample_room.live.take 1 ++ sample_room.live.drop (1 + 1) :=
  ⟨by decide, by decide,
    ((remove_deletes_at_index sample_room 1 (by decide)).2.2 (by decide)).1⟩

/-- C3: for every `InitialCapacity ≥ 1` and every list `vs`, the
initializer-list constructor, which is the default constructor followed by
`add` on each value in order, returns a vector with `size() = |vs|` whose
`index(i)` is `vs[i]` for every `i < |vs|`.  Each single `add` of such a run
returns, increases `size()` by exactly one, leaves the elements stored before at
their indices, and `index(length - 1)` right after `add(x)` returns `x`. -/
theorem adds_store_in_order {α : Type} [Inhabited α] (InitialCapacity : Nat)
    (hIC : 1 ≤ InitialCapacity) (vs : List α) :
    vector.ctor_list InitialCapacity vs = vector.add_all vs (vector.ctor InitialCapacity) ∧
    (vector.ctor_list InitialCapacity vs).1 = .returned () ∧
    (vector.ctor_list InitialCapacity vs).2.size = vs.length ∧
    (vector.ctor_list InitialCapacity vs).2.live = vs ∧
    (∀ i x, vs[i]? = some x →
      ((vector.ctor_list InitialCapacity vs).2.index i).1 = .returned x) ∧
    (∀ (pre : List α) (x : α) (s : vector α),
      s = (vector.add_all pre (vector.ctor InitialCapacity)).2 →
        (s.add x).1 = .returned () ∧ (s.add x).2.size = s.size + 1 ∧
        (∀ j, j < s.size → ((s.add x).2.index j).1 = (s.index j).1) ∧
        ((s.add x).2.index ((s.add x).2.size - 1)).1 = .returned x) := by
  have hpol : ∀ c, (vector.ctor InitialCapacity : vector α).m_capacity ≤ c →
      c < (vector.ctor InitialCapacity : vector α).m_resize_type c := by
    intro c hc
    simp only [vector.ctor] at hc ⊢
    omega
  have hrun := fun l => add_all_spec l (vector.ctor InitialCapacity : vector α)
    (ctor_wf InitialCapacity) hpol
  obtain ⟨w, hw, hwsz, _, _, hwwf, hwlive⟩ := hrun vs
  rw [ctor_live, List.nil_append] at hwlive
  refine ⟨rfl, ?_, ?_, ?_, ?_, ?_⟩
  · simp [vector.ctor_list, hw]
  · simp only [vector.ctor_list, hw, vector.size, hwsz]
    simp [vector.ctor]
  · simp [vector.ctor_list, hw, hwlive]
  · intro i x hix
    simp only [vector.ctor_list, hw]
    have hi : i < w.m_size := by
      rw [hwsz]
      have := (List.getElem?_eq_some_iff.mp hix).1
      simp only [vector.ctor]
      omega
    obtain ⟨y, hy, hidx⟩ := index_spec w i hwwf hi
    rw [hidx]
    rw [hwlive, hix] at hy
    simp only [Option.some.injEq] at hy
    rw [hy]
  · intro pre x s hs
    obtain ⟨u, hu, husz, hupol, hucap, huwf, hulive⟩ := hrun pre
    rw [hu] at hs
    simp only at hs
    subst hs
    have hgrow : s.m_size = s.m_capacity → s.m_capacity < s.m_resize_type s.m_capacity := by
      intro _
      rw [hupol]
      exact hpol _ hucap
    obtain ⟨t, ht, htsz, _, _, htwf, htlive⟩ := add_spec s x huwf hgrow
    rw [ht]
    refine ⟨rfl, by simp [vector.size, htsz], ?_, ?_⟩
    · intro j hj
      simp only [vector.size] at hj
      obtain ⟨a, ha, haidx⟩ := index_spec s j huwf hj
      obtain ⟨b, hb, hbidx⟩ := index_spec t j htwf (by omega)
      rw [haidx, hbidx]
      rw [htlive, List.getElem?_append_left (by rw [live_length s huwf]; exact hj), ha] at hb
      simp only [Option.some.injEq] at hb
      simp [hb]
    · simp only [vector.size, htsz, Nat.add_sub_cancel]
      obtain ⟨b, hb, hbidx⟩ := index_spec t s.m_size htwf (by omega)
      rw [hbidx]
      rw [htlive, List.getElem?_append_right (by rw [live_length s huwf]),
        live_length s huwf] at hb
      simp at hb
      simp [hb]

/-- C3 with `InitialCapacity = 2` and five values, which forces two growths. -/
theorem adds_store_in_order_witness :
    1 ≤ 2 ∧ (vector.ctor_list 2 [1, 2, 3, 4, 5]).2.live = [1, 2, 3, 4, 5] :=
  ⟨by decide, (adds_store_in_order 2 (by decide) [1, 2, 3, 4, 5]).2.2.2.1⟩

/-- C4: on every well-formed vector, `index(i)` throws the `range_error`
"Out of Range" if and only if `i ≥ length`, and otherwise returns the `i`-th
element of the live sequence.  In particular `index(length)` throws, and so does
`index` at the slot vacated by a `remove` and at every slot after `clear`. -/
theorem index_checks_length {α : Type} [Inhabited α] (v : vector α) (i : Nat) (hwf : v.wf) :
    ((v.index i).1 = .thrown (.range_error "Out of Range") ↔ i ≥ v.m_size) ∧
    (i < v.m_size → ∃ x, v.live[i]? = some x ∧ (v.index i).1 = .returned x) ∧
    (v.index v.m_size).1 = .thrown (.range_error "Out of Range") ∧
    (∀ k, k < v.m_size →
      ((v.remove k).2.index (v.m_size - 1)).1 = .thrown (.range_error "Out of Range")) ∧
    (∀ j, ((v.clear).2.index j).1 = .thrown (.range_error "Out of Range")) := by
  refine ⟨?_, ?_, ?_, ?_, ?_⟩
  · constructor
    · intro h
      by_contra hc
      obtain ⟨x, _, hx⟩ := index_spec v i hwf (by omega)
      rw [hx] at h
      simp at h
    · intro hi
      unfold vector.index
      rw [if_pos hi]
  · intro hi
    obtain ⟨x, hx, hidx⟩ := index_spec v i hwf hi
    exact ⟨x, hx, by rw [hidx]⟩
  · unfold vector.index
    rw [if_pos (Nat.le_refl _)]
  · intro k hk
    obtain ⟨w, hw, hsz, _⟩ := remove_spec v k hwf hk
    rw [hw]
    unfold vector.index
    rw [if_pos (by simp only; omega)]
  · intro j
    simp [vector.index, vector.clear]

/-- C4 on `10, 20, 30` with a stale fourth slot: position `3` is not readable. -/
theorem index_checks_length_witness :
    sample_room.wf ∧ (sample_room.index 3).1 = .thrown (.range_error "Out of Range") :=
  ⟨by decide, (index_checks_length sample_room 3 (by decide)).1.2 (by decide)⟩

/-- C5: a call that throws leaves the vector exactly as it was (same length,
capacity, growth policy and buffer): `insert(i, x)` with `i > length`,
`remove(i)` with `i ≥ length` and `index(i)` with `i ≥ length` return the state
they were given, and no other throw exists; a throwing `insert` on a full
buffer does not grow it. -/
theorem failed_calls_change_nothing {α : Type} [Inhabited α] (v : vector α) (i : Nat) (x : α) :
    (i > v.m_size → v.insert i x = (.thrown (.range_error "Out of Range"), v)) ∧
    (i ≥ v.m_size → v.remove i = (.thrown (.range_error "Index out of bounds"), v)) ∧
    (i ≥ v.m_size → v.index i = (.thrown (.range_error "Out of Range"), v)) ∧
    (∀ e, (v.insert i x).1 = .thrown e → (v.insert i x).2 = v) ∧
    (∀ e, (v.remove i).1 = .thrown e → (v.remove i).2 = v) ∧
    (∀ e, (v.index i).1 = .thrown e → (v.index i).2 = v) ∧
    (i > v.m_size → v.m_size = v.m_capacity →
      (v.insert i x).2.m_capacity = v.m_capacity ∧ (v.insert i x).2.m_data = v.m_data) := by
  have hins : i > v.m_size → v.insert i x = (.thrown (.range_error "Out of Range"), v) := by
    intro hi
    simp only [vector.size] at hi
    unfold vector.insert
    rw [if_pos hi]
  have hrem : i ≥ v.m_size →
      v.remove i = (.thrown (.range_error "Index out of bounds"), v) := by
    intro hi
    simp only [vector.size] at hi
    unfold vector.remove
    rw [if_pos hi]
  have hidx : i ≥ v.m_size → v.index i = (.thrown (.range_error "Out of Range"), v) := by
    intro hi
    unfold vector.index
    rw [if_pos hi]
  refine ⟨hins, hrem, hidx, ?_, ?_, ?_, ?_⟩
  · intro e he
    by_cases hi : i > v.m_size
    · rw [hins hi]
    · exfalso
      revert he
      unfold vector.insert
      rw [if_neg hi]
      apply andThen_thrown _ _ _ (grow_if_full_no_throw v e)
      intro w
      split
      · simp
      · split <;> simp
  · intro e he
    by_cases hi : i ≥ v.m_size
    · rw [hrem hi]
    · exfalso
      revert he
      unfold vector.remove
      rw [if_neg hi]
      split <;> simp
  · intro e he
    by_cases hi : i ≥ v.m_size
    · rw [hidx hi]
    · exfalso
      revert he
      unfold vector.index
      rw [if_neg hi]
      split <;> simp
  · intro hi _
    rw [hins hi]
    exact ⟨rfl, rfl⟩

/-- C5 at a full buffer: `insert(3, 7)` into `10, 20` throws and changes nothing. -/
theorem failed_calls_change_nothing_witness :
    3 > sample_full.m_size ∧
    sample_full.insert 3 7 = (.thrown (.range_error "Out of Range"), sample_full) :=
  ⟨by decide, (failed_calls_change_nothing sample_full 3 7).1 (by decide)⟩

/-- C6 as stated fails for `insert`: the buffer `10, 20` is full, `insert(0, 9)`
returns and the capacity becomes `policy(2) = 4`, but the element that was at
index `0` is no longer at index `0`. -/
theorem insert_on_full_buffer_moves_elements :
    sample_full.wf ∧ sample_full.m_capacity < sample_full.m_resize_type sample_full.m_capacity ∧
    sample_full.m_size = sample_full.m_capacity ∧
    (sample_full.insert 0 9).1 = .returned () ∧
    (sample_full.insert 0 9).2.m_capacity = sample_full.m_resize_type sample_full.m_capacity ∧
    ¬ (∀ j, j < sample_full.m_size →
        (sample_full.insert 0 9).2.live[j]? = sample_full.live[j]?) := by
  refine ⟨by decide, by decide, by decide, by decide, by decide, ?_⟩
  intro h
  exact absurd (h 0 (by decide)) (by decide)

/-- C6, amended: on every well-formed vector, if `length == capacity` before
the call and the policy returns more than the capacity, then the growth itself
leaves the live sequence as it is, `add(x)` ends with
`capacity() = policy(previous capacity)` and every previous element at its
index, and a returning `insert(i, x)` ends with the same capacity, the elements
below `i` at their indices and those from `i` on one index higher, in the same
order.  If `length < capacity` the capacity is unchanged and the policy is not
consulted: the call does the same under any other policy. -/
theorem growth_on_full_buffer {α : Type} [Inhabited α] (v : vector α) (i : Nat) (x : α)
    (hwf : v.wf) :
    (v.m_size = v.m_capacity → v.m_capacity < v.m_resize_type v.m_capacity →
      (v.grow_if_full).2.live = v.live ∧
      (v.add x).1 = .returned () ∧
      (v.add x).2.capacity = v.m_resize_type v.capacity ∧
      (∀ j, j < v.m_size → (v.add x).2.live[j]? = v.live[j]?) ∧
      (i ≤ v.m_size →
        (v.insert i x).1 = .returned () ∧
        (v.insert i x).2.capacity = v.m_resize_type v.capacity ∧
        (∀ j, j < i → (v.insert i x).2.live[j]? = v.live[j]?) ∧
        (∀ j, i ≤ j → (v.insert i x).2.live[j + 1]? = v.live[j]?))) ∧
    (v.m_size < v.m_capacity →
      (v.add x).1 = .returned () ∧
      (v.add x).2.capacity = v.capacity ∧
      (i ≤ v.m_size →
        (v.insert i x).1 = .returned () ∧ (v.insert i x).2.capacity = v.capacity) ∧
      (∀ g : Nat → Nat,
        (vector.add x { v with m_resize_type := g }).1 = (v.add x).1 ∧
        (vector.add x { v with m_resize_type := g }).2 =
          { (v.add x).2 with m_resize_type := g } ∧
        (vector.insert i x { v with m_resize_type := g }).1 = (v.insert i x).1 ∧
        (vector.insert i x { v with m_resize_type := g }).2 =
          { (v.insert i x).2 with m_resize_type := g })) := by
  have hlen := live_length v hwf
  constructor
  · intro hfull hg
    obtain ⟨w, hw, _, _, hwcap, _, hwlive⟩ := add_spec v x hwf (fun _ => hg)
    refine ⟨grow_if_full_live v hwf (fun _ => hg), by rw [hw], ?_, ?_, ?_⟩
    · rw [hw]
      simp only [vector.capacity, hwcap, if_pos hfull]
    · intro j hj
      rw [hw]
      simp only [hwlive]
      rw [List.getElem?_append_left (by omega)]
    · intro hi
      obtain ⟨u, hu, _, _, hucap, _, hulive⟩ := insert_spec v i x hwf (fun _ => hg) hi
      rw [hu]
      refine ⟨rfl, ?_, ?_, ?_⟩
      · simp only [vector.capacity, hucap, if_pos hfull]
      · intro j hj
        simp only [hulive]
        rw [splice_slot _ _ _ (by omega), if_pos hj]
      · intro j hj
        simp only [hulive]
        rw [splice_slot _ _ _ (by omega), if_neg (by omega), if_neg (by omega)]
        simp
  · intro hroom
    have hne : ¬ v.m_size = v.m_capacity := by omega
    obtain ⟨w, hw, _, _, hwcap, _, _⟩ := add_spec v x hwf (fun h => absurd h hne)
    refine ⟨by rw [hw], ?_, ?_, ?_⟩
    · rw [hw]
      simp only [vector.capacity, hwcap, if_neg hne]
    · intro hi
      obtain ⟨u, hu, _, _, hucap, _, _⟩ := insert_spec v i x hwf (fun h => absurd h hne) hi
      rw [hu]
      exact ⟨rfl, by simp only [vector.capacity, hucap, if_neg hne]⟩
    · intro g
      refine ⟨?_, ?_, ?_, ?_⟩
      · simp only [vector.add, vector.grow_if_full, if_neg hne, andThen]
        split <;> rfl
      · simp only [vector.add, vector.grow_if_full, if_neg hne, andThen]
        split <;> rfl
      · simp only [vector.insert, vector.grow_if_full, if_neg hne, andThen]
        split
        · rfl
        · split
          · rfl
          · split <;> rfl
      · simp only [vector.insert, vector.grow_if_full, if_neg hne, andThen]
        split
        · rfl
        · split
          · rfl
          · split <;> rfl

/-- C6, amended, at the full buffer `10, 20`: `add(7)` doubles the capacity. -/
theorem growth_on_full_buffer_witness :
    sample_full.wf ∧ sample_full.m_size = sample_full.m_capacity ∧
    sample_full.m_capacity < sample_full.m_resize_type sample_full.m_capacity ∧
    (sample_full.add 7).2.capacity = sample_full.m_resize_type sample_full.capacity :=
  ⟨by decide, by decide, by decide,
    ((growth_on_full_buffer sample_full 0 7 (by decide)).1 (by decide) (by decide)).2.2.1⟩

/-- C7: for a vector constructed empty with the policy `c → c + 5` and any
`InitialCapacity` (in particular any `InitialCapacity ≥ 1`), after `k`
consecutive `add` calls, all of which return, `capacity()` is `InitialCapacity`
when `k ≤ InitialCapacity`, `InitialCapacity + 5` when
`InitialCapacity < k ≤ InitialCapacity + 5`, and `InitialCapacity + 10` when
`InitialCapacity + 5 < k ≤ InitialCapacity + 10`: the first growth is at call
number `InitialCapacity + 1` and the second at call number `InitialCapacity + 6`. -/
theorem plus_five_policy_capacities {α : Type} [Inhabited α] (InitialCapacity : Nat)
    (vs : List α) (hk : vs.length ≤ InitialCapacity + 10) :
    (vector.ctor_resize InitialCapacity (fun c => c + 5) : vector α).capacity =
      InitialCapacity ∧
    (vector.add_all vs (vector.ctor_resize InitialCapacity (fun c => c + 5))).1 =
      .returned () ∧
    (vector.add_all vs (vector.ctor_resize InitialCapacity (fun c => c + 5))).2.size =
      vs.length ∧
    (vs.length ≤ InitialCapacity →
      (vector.add_all vs (vector.ctor_resize InitialCapacity (fun c => c + 5))).2.capacity =
        InitialCapacity) ∧
    (InitialCapacity < vs.length → vs.length ≤ InitialCapacity + 5 →
      (vector.add_all vs (vector.ctor_resize InitialCapacity (fun c => c + 5))).2.capacity =
        InitialCapacity + 5) ∧
    (InitialCapacity + 5 < vs.length →
      (vector.add_all vs (vector.ctor_resize InitialCapacity (fun c => c + 5))).2.capacity =
        InitialCapacity + 10) := by
  obtain ⟨w, hw, hwsz, _, _, hwcap⟩ := plus_five_run InitialCapacity vs hk
  rw [hw]
  refine ⟨rfl, rfl, hwsz, ?_, ?_, ?_⟩
  · intro h
    simp only [vector.capacity, hwcap, if_pos h]
  · intro h1 h2
    simp only [vector.capacity, hwcap, if_neg (Nat.not_le.mpr h1), if_pos h2]
  · intro h
    simp only [vector.capacity, hwcap]
    rw [if_neg (by omega), if_neg (by omega)]

/-- C7 with `InitialCapacity = 2` and eight calls: the capacity is `2 + 10`. -/
theorem plus_five_policy_capacities_witness :
    [1, 2, 3, 4, 5, 6, 7, 8].length ≤ 2 + 10 ∧ 2 + 5 < [1, 2, 3, 4, 5, 6, 7, 8].length ∧
    (vector.add_all [1, 2, 3, 4, 5, 6, 7, 8]
      (vector.ctor_resize 2 (fun c => c + 5))).2.capacity = 2 + 10 :=
  ⟨by decide, by decide,
    (plus_five_policy_capacities 2 [1, 2, 3, 4, 5, 6, 7, 8] (by decide)).2.2.2.2.2 (by decide)⟩

/-- C8: for every vector state, `clear()` returns with `size() = 0` and the
capacity it had, after which `index(i)` throws for every `i`; and if the
capacity is at least one, an `add(x)` right after `clear()` returns without
growing the buffer and leaves the one-element sequence `x`. -/
theorem clear_keeps_capacity {α : Type} [Inhabited α] (v : vector α) (x : α) :
    (v.clear).1 = .returned () ∧
    (v.clear).2.size = 0 ∧
    (v.clear).2.capacity = v.capacity ∧
    (∀ i, ((v.clear).2.index i).1 = .thrown (.range_error "Out of Range")) ∧
    (1 ≤ v.capacity →
      ((v.clear).2.add x).1 = .returned () ∧
      ((v.clear).2.add x).2.capacity = v.capacity ∧
      ((v.clear).2.add x).2.size = 1 ∧
      ((v.clear).2.add x).2.live = [x]) := by
  refine ⟨rfl, rfl, rfl, ?_, ?_⟩
  · intro i
    simp [vector.index, vector.clear]
  · intro hcap
    simp only [vector.capacity] at hcap
    have hwf : (v.clear).2.wf := by
      simp [vector.wf, vector.clear, make_unique]
    have hne : ¬ (v.clear).2.m_size = (v.clear).2.m_capacity := by
      simp only [vector.clear]
      omega
    obtain ⟨w, hw, hwsz, _, hwcap, _, hwlive⟩ :=
      add_spec (v.clear).2 x hwf (fun h => absurd h hne)
    rw [hw]
    refine ⟨rfl, ?_, ?_, ?_⟩
    · simp only [vector.capacity, hwcap, if_neg hne]
      rfl
    · simp only [vector.size, hwsz]
      rfl
    · simp only [hwlive]
      simp [vector.live, vector.clear]

/-- C8 on `10, 20, 30`: after `clear()` an `add(7)` leaves the sequence `7`. -/
theorem clear_keeps_capacity_witness :
    1 ≤ sample_room.capacity ∧ ((sample_room.clear).2.add 7).2.live = [7] :=
  ⟨by decide, ((clear_keeps_capacity sample_room 7).2.2.2.2 (by decide)).2.2.2⟩

/-- C9: for every well-formed vector with live sequence `xs` and every
callable that replaces an element by `f` of it, `map` returns with the live
sequence `[f x | x ∈ xs]` in the same order; the record kept by the callable is
the fold over `xs` in index order, so the callable ran exactly once on each
live element, in the order of the indices, and on nothing else (the log of its
arguments is `xs`); the slots from `length` on, the length and the capacity are
unchanged.  Incrementing over the vector built from `1, 2, 3` gives `2, 3, 4`. -/
theorem map_updates_each_live_element {α σ : Type} (v : vector α) (hwf : v.wf) (f : α → α)
    (record : α → σ → σ) (s : σ) :
    (v.map (pure_call f record) s).1 = .returned () ∧
    (v.map (pure_call f record) s).2.1.live = v.live.map f ∧
    (v.map (pure_call f record) s).2.2 = v.live.foldl (fun s x => record x s) s ∧
    (v.map (pure_call f (fun x log => log ++ [x])) []).2.2 = v.live ∧
    (v.map (pure_call f record) s).2.1.m_data.drop v.m_size = v.m_data.drop v.m_size ∧
    (v.map (pure_call f record) s).2.1.size = v.size ∧
    (v.map (pure_call f record) s).2.1.capacity = v.capacity ∧
    ((sample_list.map (pure_call (fun n => n + 1) (fun _ (u : Unit) => u)) ()).2.1.index 0).1 =
      .returned 2 ∧
    ((sample_list.map (pure_call (fun n => n + 1) (fun _ (u : Unit) => u)) ()).2.1.index 1).1 =
      .returned 3 ∧
    ((sample_list.map (pure_call (fun n => n + 1) (fun _ (u : Unit) => u)) ()).2.1.index 2).1 =
      .returned 4 ∧
    (sample_list.map (pure_call (fun n => n + 1) (fun _ (u : Unit) => u)) ()).2.1.size = 3 := by
  have hlen := live_length v hwf
  have hmaplen : (List.map f (List.take v.m_size v.m_data)).length = v.m_size := by
    rw [List.length_map]
    exact hlen
  have hlog : ∀ (l acc : List α), l.foldl (fun s x => s ++ [x]) acc = acc ++ l := by
    intro l
    induction l with
    | nil => intro acc; simp
    | cons a l ih => intro acc; simp [ih]
  refine ⟨?_, ?_, ?_, ?_, ?_, ?_, ?_, by decide, by decide, by decide, by decide⟩
  · rw [map_spec v hwf]
  · rw [map_spec v hwf]
    simp only [vector.live]
    exact List.take_left' hmaplen
  · rw [map_spec v hwf]
  · rw [map_spec v hwf]
    simp only [hlog, List.nil_append]
  · rw [map_spec v hwf]
    simp only
    exact List.drop_left' hmaplen
  · rw [map_spec v hwf]
    rfl
  · rw [map_spec v hwf]
    rfl

/-- C9 on `10, 20, 30` with a stale fourth slot: the log of the arguments of the
callable is the live sequence. -/
theorem map_updates_each_live_element_witness :
    sample_room.wf ∧
    (sample_room.map (pure_call (fun n => n + 1) (fun x log => log ++ [x])) []).2.2 =
      sample_room.live :=
  ⟨by decide,
    (map_updates_each_live_element sample_room (by decide) (fun n => n + 1)
      (fun (_ : Nat) (u : Unit) => u) ()).2.2.2.1⟩

/-- C10: for every well-formed vector with live sequence `xs`, the loop that
starts at `begin()` and dereferences then advances while the iterator differs
from `end()` returns: it visits exactly `xs` in index order, makes exactly
`length` advances, none of which throws, and stops with the iterator equal to
`end()`.  For the empty vector `begin()` equals `end()` and nothing is visited.
The vector built from `1, 2, 3` yields `1, 2, 3`. -/
theorem traversal_visits_live_sequence {α : Type} (v : vector α) (hwf : v.wf) :
    traverse v.end_ v.begin [] 0 = .returned ⟨v.live, v.m_size, v.end_⟩ ∧
    (∀ w, traverse v.end_ v.begin [] 0 = .returned w →
      w.visited = v.live ∧ w.advances = v.size ∧ w.stop.eq v.end_ = true) ∧
    (v.size = 0 →
      v.begin.eq v.end_ = true ∧ traverse v.end_ v.begin [] 0 = .returned ⟨[], 0, v.begin⟩) ∧
    traverse sample_list.end_ sample_list.begin [] 0 =
      .returned ⟨[1, 2, 3], 3, sample_list.end_⟩ := by
  have hall := traverse_all v hwf
  refine ⟨hall, ?_, ?_, ?_⟩
  · intro w hw
    rw [hall] at hw
    simp only [Outcome.returned.injEq] at hw
    subst hw
    exact ⟨rfl, rfl, by simp [iterator.eq]⟩
  · intro h0
    simp only [vector.size] at h0
    refine ⟨by simp [iterator.eq, vector.begin, vector.end_, h0], ?_⟩
    rw [hall]
    simp [vector.live, vector.begin, vector.end_, h0]
  · have h := traverse_all sample_list (by decide)
    have hl : sample_list.live = [1, 2, 3] := by decide
    have hs : sample_list.m_size = 3 := by decide
    rw [hl, hs] at h
    exact h

/-- C10 on `10, 20, 30` with a stale fourth slot: the stale slot is not visited. -/
theorem traversal_visits_live_sequence_witness :
    sample_room.wf ∧
    traverse sample_room.end_ sample_room.begin [] 0 =
      .returned ⟨sample_room.live, sample_room.m_size, sample_room.end_⟩ :=
  ⟨by decide, (traversal_visits_live_sequence sample_room (by decide)).1⟩

/-- C11: `operator++` throws `out_of_range` if and only if `pos ≥ size` and
otherwise increases `pos` by exactly one; `operator--` throws `out_of_range` if
and only if `pos == 0` and otherwise decreases `pos` by exactly one; a throwing
step leaves the iterator as it was, and the postfix forms make the same step.
So an iterator obtained from `begin()` or `end()` and moved by any sequence of
such calls keeps `pos ≤ size`, with `size` the length of the vector;
`operator++` on `end()` and `operator--` on `begin()` throw. -/
theorem iterator_stays_in_range {α : Type} (it : iterator α) (v : vector α)
    (moves : List Move) :
    ((it.increment).1 = .thrown (.out_of_range "Iterator is outside of range") ↔
      it.pos ≥ it.size) ∧
    (it.pos < it.size → it.increment = (.returned (), { it with pos := it.pos + 1 })) ∧
    ((it.decrement).1 = .thrown (.out_of_range "Iterator is outside of range") ↔
      it.pos = 0) ∧
    (it.pos ≠ 0 → it.decrement = (.returned (), { it with pos := it.pos - 1 }) ∧
      (it.decrement).2.pos + 1 = it.pos) ∧
    (∀ e, (it.increment).1 = .thrown e → (it.increment).2 = it) ∧
    (∀ e, (it.decrement).1 = .thrown e → (it.decrement).2 = it) ∧
    (it.post_increment).2 = (it.increment).2 ∧
    (it.post_decrement).2 = (it.decrement).2 ∧
    ((iterator.run moves v.begin).pos ≤ (iterator.run moves v.begin).size ∧
      (iterator.run moves v.begin).size = v.size) ∧
    ((iterator.run moves v.end_).pos ≤ (iterator.run moves v.end_).size ∧
      (iterator.run moves v.end_).size = v.size) ∧
    (v.end_.increment).1 = .thrown (.out_of_range "Iterator is outside of range") ∧
    (v.begin.decrement).1 = .thrown (.out_of_range "Iterator is outside of range") := by
  have hrun : ∀ (ms : List Move) (a : iterator α), a.pos ≤ a.size →
      (iterator.run ms a).pos ≤ (iterator.run ms a).size ∧ (iterator.run ms a).size = a.size := by
    intro ms
    induction ms with
    | nil => intro a ha; exact ⟨ha, rfl⟩
    | cons m ms ih =>
      intro a ha
      have hstep : (a.step m).2.pos ≤ (a.step m).2.size ∧ (a.step m).2.size = a.size := by
        cases m
        · simp only [iterator.step, iterator.increment]
          split
          · exact ⟨ha, rfl⟩
          · constructor
            · simp only
              omega
            · rfl
        · simp only [iterator.step, iterator.decrement]
          split
          · exact ⟨ha, rfl⟩
          · constructor
            · simp only
              omega
            · rfl
      obtain ⟨h1, h2⟩ := ih (a.step m).2 hstep.1
      exact ⟨h1, by rw [iterator.run, h2, hstep.2]⟩
  refine ⟨?_, ?_, ?_, ?_, ?_, ?_, ?_, ?_, ?_, ?_, ?_, ?_⟩
  · unfold iterator.increment
    constructor
    · intro h
      by_contra hc
      rw [if_neg hc] at h
      simp at h
    · intro h
      rw [if_pos h]
  · intro h
    unfold iterator.increment
    rw [if_neg (by omega)]
  · unfold iterator.decrement
    constructor
    · intro h
      by_contra hc
      rw [if_neg hc] at h
      simp at h
    · intro h
      rw [if_pos h]
  · intro h
    unfold iterator.decrement
    rw [if_neg h]
    exact ⟨rfl, by simp only; omega⟩
  · intro e
    unfold iterator.increment
    split
    · intro _; rfl
    · intro h; simp at h
  · intro e
    unfold iterator.decrement
    split
    · intro _; rfl
    · intro h; simp at h
  · unfold iterator.post_increment
    split <;> simp_all
  · unfold iterator.post_decrement
    split <;> simp_all
  · exact hrun moves v.begin (Nat.zero_le _)
  · exact hrun moves v.end_ (Nat.le_refl _)
  · simp [iterator.increment, vector.end_]
  · simp [iterator.decrement, vector.begin]

/-- C11 on `10, 20, 30`: the first step from `begin()` moves to position `1`. -/
theorem iterator_stays_in_range_witness :
    sample_room.begin.pos < sample_room.begin.size ∧
    sample_room.begin.increment =
      (.returned (), { sample_room.begin with pos := sample_room.begin.pos + 1 }) :=
  ⟨by decide,
    (iterator_stays_in_range sample_room.begin sample_room []).2.1 (by decide)⟩

/-- C13: for every list and every policy `p`, the constructor with a policy ends
as the initializer-list constructor does and with the same length, live
sequence, capacity and buffer: the growths of the append loop never use `p`.
With `InitialCapacity ≥ 1` it returns with `p` installed, so the next `add` on a
full buffer calls `resize_capacity(p(capacity))` and, `p` returning more than
the capacity, ends with `capacity() = p(previous capacity)`. -/
theorem list_ctor_installs_policy_last {α : Type} [Inhabited α] (InitialCapacity : Nat)
    (items : List α) (p : Nat → Nat) :
    (vector.ctor_list_resize InitialCapacity items p).1 =
      (vector.ctor_list InitialCapacity items).1 ∧
    (vector.ctor_list_resize InitialCapacity items p).2.size =
      (vector.ctor_list InitialCapacity items).2.size ∧
    (vector.ctor_list_resize InitialCapacity items p).2.live =
      (vector.ctor_list InitialCapacity items).2.live ∧
    (vector.ctor_list_resize InitialCapacity items p).2.capacity =
      (vector.ctor_list InitialCapacity items).2.capacity ∧
    (vector.ctor_list_resize InitialCapacity items p).2.m_data =
      (vector.ctor_list InitialCapacity items).2.m_data ∧
    (1 ≤ InitialCapacity →
      (vector.ctor_list_resize InitialCapacity items p).1 = .returned () ∧
      (vector.ctor_list_resize InitialCapacity items p).2.m_resize_type = p ∧
      (vector.ctor_list_resize InitialCapacity items p).2.live = items ∧
      (∀ w, w = (vector.ctor_list_resize InitialCapacity items p).2 →
        w.m_size = w.m_capacity →
          w.grow_if_full = w.resize_capacity (p w.m_capacity) ∧
          (w.m_capacity < p w.m_capacity →
            ∀ x, (w.add x).1 = .returned () ∧ (w.add x).2.capacity = p w.capacity ∧
              (w.add x).2.live = items ++ [x]))) := by
  have hsame : ∀ r : Outcome Unit × vector α,
      (andThen r fun v => (Outcome.returned (), { v with m_resize_type := p })).1 = r.1 ∧
      (andThen r fun v => (Outcome.returned (), { v with m_resize_type := p })).2.m_size =
        r.2.m_size ∧
      (andThen r fun v => (Outcome.returned (), { v with m_resize_type := p })).2.m_capacity =
        r.2.m_capacity ∧
      (andThen r fun v => (Outcome.returned (), { v with m_resize_type := p })).2.m_data =
        r.2.m_data := by
    rintro ⟨o, w⟩
    cases o <;> exact ⟨rfl, rfl, rfl, rfl⟩
  obtain ⟨h1, h2, h3, h4⟩ := hsame (vector.ctor_list InitialCapacity items)
  refine ⟨h1, h2, ?_, h3, h4, ?_⟩
  · unfold vector.live
    rw [show (vector.ctor_list_resize InitialCapacity items p).2.m_data =
        (vector.ctor_list InitialCapacity items).2.m_data from h4,
      show (vector.ctor_list_resize InitialCapacity items p).2.m_size =
        (vector.ctor_list InitialCapacity items).2.m_size from h2]
  · intro hIC
    obtain ⟨u, hu, _, _, _, huwf, hulive⟩ :=
      add_all_spec items (vector.ctor InitialCapacity : vector α) (ctor_wf InitialCapacity)
        (by
          intro c hc
          simp only [vector.ctor] at hc ⊢
          omega)
    rw [ctor_live, List.nil_append] at hulive
    have hres : vector.ctor_list_resize InitialCapacity items p =
        (.returned (), { u with m_resize_type := p }) := by
      simp only [vector.ctor_list_resize, vector.ctor_list, hu, andThen]
    rw [hres]
    refine ⟨rfl, rfl, hulive, ?_⟩
    intro w hw hfull
    subst hw
    have hwwf : ({ u with m_resize_type := p } : vector α).wf := huwf
    refine ⟨?_, ?_⟩
    · unfold vector.grow_if_full
      rw [if_pos hfull]
    · intro hp x
      obtain ⟨t, ht, _, _, htcap, _, htlive⟩ :=
        add_spec ({ u with m_resize_type := p } : vector α) x hwwf (fun _ => hp)
      rw [ht]
      refine ⟨rfl, ?_, ?_⟩
      · simp only [vector.capacity, htcap]
        rw [if_pos hfull]
      · rw [htlive]
        exact congrArg (fun l => l ++ [x]) hulive

/-- C13 with `InitialCapacity = 2`, the items `1, 2, 3` and the policy
`c → c + 5`: the policy is installed after the loop. -/
theorem list_ctor_installs_policy_last_witness :
    1 ≤ 2 ∧ (vector.ctor_list_resize 2 [1, 2, 3] (fun c => c + 5)).2.live = [1, 2, 3] :=
  ⟨by decide,
    ((list_ctor_installs_policy_last 2 [1, 2, 3] (fun c => c + 5)).2.2.2.2.2
      (by decide)).2.2.1⟩

/-- C14: insertion at `length` is append: for every vector state and every
value, `insert(length, x)` and `add(x)` end in the same way with the same
state, so with the same length, capacity, growth and live sequence. -/
theorem insert_at_length_is_add {α : Type} [Inhabited α] (v : vector α) (x : α) :
    v.insert v.size x = v.add x ∧
    (v.insert v.size x).2.size = (v.add x).2.size ∧
    (v.insert v.size x).2.capacity = (v.add x).2.capacity ∧
    (v.insert v.size x).2.live = (v.add x).2.live := by
  have h : v.insert v.size x = v.add x := by
    have hsz : ∀ w : vector α, (v.grow_if_full) = (Outcome.returned (), w) →
        w.m_size = v.m_size := by
      intro w hw
      unfold vector.grow_if_full vector.resize_capacity at hw
      split at hw
      · simp only at hw
        split at hw
        · simp at hw
        · simp only [Prod.mk.injEq, true_and] at hw
          rw [← hw]
      · simp only [Prod.mk.injEq, true_and] at hw
        rw [← hw]
    unfold vector.insert vector.add vector.size
    rw [if_neg (Nat.lt_irrefl _)]
    rcases hgrow : v.grow_if_full with ⟨o, w⟩
    cases o with
    | returned u =>
      have := hsz w hgrow
      simp only [andThen]
      rw [← this, insert_shift_at_index]
    | thrown e => rfl
    | undefined => rfl
  exact ⟨h, by rw [h], by rw [h], by rw [h]⟩

/-- C17 as stated fails for `insert`: on the buffer `10, 20` the call
`insert(3, 7)` throws the very exception that `index(3)` throws, class and
message, and not the one with the message of `remove`. -/
theorem insert_throws_as_index_does :
    3 > sample_full.size ∧
    (sample_full.insert 3 7).1 = .thrown (.range_error "Out of Range") ∧
    (sample_full.index 3).1 = .thrown (.range_error "Out of Range") ∧
    (sample_full.remove 3).1 = .thrown (.range_error "Index out of bounds") ∧
    ¬ ((sample_full.insert 3 7).1 = .thrown (.range_error "Index out of bounds")) ∧
    ¬ (∀ e1 e2, (sample_full.insert 3 7).1 = .thrown e1 →
        (sample_full.index 3).1 = .thrown e2 → e1 ≠ e2) := by
  refine ⟨by decide, by decide, by decide, by decide, by decide, ?_⟩
  intro h
  exact h (.range_error "Out of Range") (.range_error "Out of Range") (by decide) (by decide) rfl

/-- C17, amended: `remove` with `index ≥ length` throws `range_error` with the
message "Index out of bounds", which is distinct from the message
"Out of Range" of the `range_error` that both `index(i)` with `i ≥ length` and
`insert` with `index > length` throw. -/
theorem error_messages_by_member {α : Type} [Inhabited α] (v : vector α) (i : Nat) (x : α) :
    (i ≥ v.size → (v.remove i).1 = .thrown (.range_error "Index out of bounds")) ∧
    (i ≥ v.size → (v.index i).1 = .thrown (.range_error "Out of Range")) ∧
    (i > v.size → (v.insert i x).1 = .thrown (.range_error "Out of Range")) ∧
    (∀ e1 e2, i ≥ v.size → (v.remove i).1 = .thrown e1 → (v.index i).1 = .thrown e2 →
      e1 ≠ e2) ∧
    (∀ e1 e2, i > v.size → (v.remove i).1 = .thrown e1 → (v.insert i x).1 = .thrown e2 →
      e1 ≠ e2) ∧
    (∀ e1 e2, i > v.size → (v.insert i x).1 = .thrown e1 → (v.index i).1 = .thrown e2 →
      e1 = e2) := by
  have hrem : i ≥ v.size → (v.remove i).1 = .thrown (.range_error "Index out of bounds") := by
    intro hi
    simp only [vector.size] at hi
    unfold vector.remove
    rw [if_pos hi]
  have hidx : i ≥ v.size → (v.index i).1 = .thrown (.range_error "Out of Range") := by
    intro hi
    simp only [vector.size] at hi
    unfold vector.index
    rw [if_pos hi]
  have hins : i > v.size → (v.insert i x).1 = .thrown (.range_error "Out of Range") := by
    intro hi
    simp only [vector.size] at hi
    unfold vector.insert
    rw [if_pos hi]
  have hne : Exception.range_error "Index out of bounds" ≠ Exception.range_error "Out of Range" := by
    decide
  refine ⟨hrem, hidx, hins, ?_, ?_, ?_⟩
  · intro e1 e2 hi h1 h2
    rw [hrem hi] at h1
    rw [hidx hi] at h2
    simp only [Outcome.thrown.injEq] at h1 h2
    rw [← h1, ← h2]
    exact hne
  · intro e1 e2 hi h1 h2
    rw [hrem (Nat.le_of_lt hi)] at h1
    rw [hins hi] at h2
    simp only [Outcome.thrown.injEq] at h1 h2
    rw [← h1, ← h2]
    exact hne
  · intro e1 e2 hi h1 h2
    rw [hins hi] at h1
    rw [hidx (Nat.le_of_lt hi)] at h2
    simp only [Outcome.thrown.injEq] at h1 h2
    rw [← h1, ← h2]

/-- C17, amended, on `10, 20`: `remove(3)` throws "Index out of bounds". -/
theorem error_messages_by_member_witness :
    3 ≥ sample_full.size ∧
    (sample_full.remove 3).1 = .thrown (.range_error "Index out of bounds") :=
  ⟨by decide, (error_messages_by_member sample_full 3 7).1 (by decide)⟩

/-- C18: on every well-formed vector whose growth policy returns more than the
current capacity, for every `i ≤ length` and every value, `insert(i, x)`
followed by `remove(i)` returns and restores the live sequence and the length;
the capacity is the one before the calls, or `policy(capacity)` if the buffer
was full so that `insert` grew it. -/
theorem insert_then_remove_restores {α : Type} [Inhabited α] (v : vector α) (i : Nat) (x : α)
    (hwf : v.wf) (hg : v.m_capacity < v.m_resize_type v.m_capacity) (hi : i ≤ v.size) :
    (v.insert i x).1 = .returned () ∧
    ((v.insert i x).2.remove i).1 = .returned () ∧
    ((v.insert i x).2.remove i).2.live = v.live ∧
    ((v.insert i x).2.remove i).2.size = v.size ∧
    (v.size < v.capacity → ((v.insert i x).2.remove i).2.capacity = v.capacity) ∧
    (v.size = v.capacity →
      ((v.insert i x).2.remove i).2.capacity = v.m_resize_type v.capacity) := by
  simp only [vector.size] at hi
  obtain ⟨w, hw, hwsz, _, hwcap, hwwf, hwlive⟩ := insert_spec v i x hwf (fun _ => hg) hi
  obtain ⟨t, ht, htsz, _, htcap, _, htlive⟩ := remove_spec w i hwwf (by omega)
  rw [hw]
  simp only
  rw [ht]
  refine ⟨trivial, rfl, ?_, ?_, ?_, ?_⟩
  · simp only [htlive, hwlive]
    exact erase_splice v.live i x (by rw [live_length v hwf]; exact hi)
  · simp only [vector.size, htsz, hwsz]
    omega
  · intro hroom
    simp only [vector.size, vector.capacity] at hroom ⊢
    rw [htcap, hwcap, if_neg (by omega)]
  · intro hfull
    simp only [vector.size, vector.capacity] at hfull ⊢
    rw [htcap, hwcap, if_pos hfull]

/-- C18 at the full buffer `10, 20`: `insert(1, 7)` then `remove(1)`. -/
theorem insert_then_remove_restores_witness :
    sample_full.wf ∧ sample_full.m_capacity < sample_full.m_resize_type sample_full.m_capacity ∧
    1 ≤ sample_full.size ∧
    ((sample_full.insert 1 7).2.remove 1).2.live = sample_full.live :=
  ⟨by decide, by decide, by decide,
    (insert_then_remove_restores sample_full 1 7 (by decide) (by decide) (by decide)).2.2.1⟩

/-- C19: for a default-constructed vector with `InitialCapacity ≥ 1`, after
`n` consecutive `add` calls, all of which return, `capacity()` is
`InitialCapacity * 2 ^ k` for the least `k` with `n ≤ InitialCapacity * 2 ^ k`,
the number of growths made is that `k`, and the capacity is less than
`2 * max(n, InitialCapacity)`. -/
theorem default_doubling_schedule {α : Type} [Inhabited α] (InitialCapacity : Nat)
    (hIC : 1 ≤ InitialCapacity) (vs : List α) :
    (vector.add_all vs (vector.ctor InitialCapacity)).1 = .returned () ∧
    (vector.add_all vs (vector.ctor InitialCapacity)).2.size = vs.length ∧
    (∃ k, (vector.add_all vs (vector.ctor InitialCapacity)).2.capacity =
          InitialCapacity * 2 ^ k ∧
        vs.length ≤ InitialCapacity * 2 ^ k ∧
        (∀ j, j < k → ¬ vs.length ≤ InitialCapacity * 2 ^ j) ∧
        vector.growths vs (vector.ctor InitialCapacity : vector α) = k) ∧
    (vector.add_all vs (vector.ctor InitialCapacity)).2.capacity <
      2 * max vs.length InitialCapacity := by
  obtain ⟨w, k, hw, hwsz, _, _, hwcap, hwle, hwleast, hwgrow⟩ :=
    doubling_run InitialCapacity hIC vs
  rw [hw]
  refine ⟨rfl, hwsz, ⟨k, hwcap, hwle, ?_, hwgrow⟩, ?_⟩
  · intro j hj
    have := hwleast j hj
    omega
  · simp only [vector.capacity, hwcap]
    cases k with
    | zero =>
      have : InitialCapacity ≤ max vs.length InitialCapacity := Nat.le_max_right _ _
      simp only [Nat.pow_zero, Nat.mul_one]
      omega
    | succ k =>
      have h1 := hwleast k (Nat.lt_succ_self k)
      have h2 : vs.length ≤ max vs.length InitialCapacity := Nat.le_max_left _ _
      rw [Nat.pow_succ, ← Nat.mul_assoc]
      omega

/-- C19 with `InitialCapacity = 2` and five calls. -/
theorem default_doubling_schedule_witness :
    1 ≤ 2 ∧
    (vector.add_all [1, 2, 3, 4, 5] (vector.ctor 2)).2.capacity < 2 * max [1, 2, 3, 4, 5].length 2 :=
  ⟨by decide, (default_doubling_schedule 2 (by decide) [1, 2, 3, 4, 5]).2.2.2⟩

/-- C12 fails at `Sized(2 ^ 63)` with the default `InitialCapacity` of ten: the
product `size * 2` wraps to `0`, so the constructor returns with length
`2 ^ 63` and capacity `0`, which is not at least `2 * 2 ^ 63`, and `index(0)`
passes the bound check and reads outside of the (empty) allocation instead of
returning a default value; the policy variant does the same. -/
theorem sized_ctor_capacity_wraps :
    2 ^ 63 > 10 ∧ 2 ^ 63 < SIZE_MOD ∧
    (vector.ctor_size 10 (2 ^ 63) : Outcome Unit × vector Nat).1 = .returned () ∧
    (vector.ctor_size 10 (2 ^ 63) : Outcome Unit × vector Nat).2.size = 2 ^ 63 ∧
    (vector.ctor_size 10 (2 ^ 63) : Outcome Unit × vector Nat).2.capacity = 0 ∧
    ¬ (2 * 2 ^ 63 ≤ (vector.ctor_size 10 (2 ^ 63) : Outcome Unit × vector Nat).2.capacity) ∧
    ((vector.ctor_size 10 (2 ^ 63) : Outcome Unit × vector Nat).2.index 0).1 = .undefined ∧
    (vector.ctor_size_resize 10 (2 ^ 63) (fun c => c + 5) :
      Outcome Unit × vector Nat).2.capacity = 0 := by
  refine ⟨by decide, by decide, by decide, by decide, by decide, by decide, by decide,
    by decide⟩

/-- C15 fails at `Sized(2 ^ 63)` and at `Sized(2 ^ 63, policy)` with
`InitialCapacity = 10`: both constructors return a vector whose length
`2 ^ 63` exceeds its capacity `0`, and the next `add` writes outside of the
allocation. -/
theorem sized_ctor_breaks_length_bound :
    1 ≤ 10 ∧
    (vector.ctor_size 10 (2 ^ 63) : Outcome Unit × vector Nat).1 = .returned () ∧
    ¬ ((vector.ctor_size 10 (2 ^ 63) : Outcome Unit × vector Nat).2.size ≤
        (vector.ctor_size 10 (2 ^ 63) : Outcome Unit × vector Nat).2.capacity) ∧
    (vector.ctor_size_resize 10 (2 ^ 63) (fun c => c + 5) :
      Outcome Unit × vector Nat).1 = .returned () ∧
    ¬ ((vector.ctor_size_resize 10 (2 ^ 63) (fun c => c + 5) :
          Outcome Unit × vector Nat).2.size ≤
        (vector.ctor_size_resize 10 (2 ^ 63) (fun c => c + 5) :
          Outcome Unit × vector Nat).2.capacity) ∧
    ((vector.ctor_size 10 (2 ^ 63) : Outcome Unit × vector Nat).2.add 7).1 = .undefined := by
  refine ⟨by decide, by decide, by decide, by decide, by decide, by decide⟩

/-- C16 fails at `Sized(2 ^ 63 + 3)` with `InitialCapacity = 10`: the product
`size * 2` wraps to `6`, so the constructor returns a vector of capacity `6`,
below `InitialCapacity`. -/
theorem sized_ctor_capacity_below_initial :
    1 ≤ 10 ∧ 2 ^ 63 + 3 < SIZE_MOD ∧
    (vector.ctor_size 10 (2 ^ 63 + 3) : Outcome Unit × vector Nat).1 = .returned () ∧
    (vector.ctor_size 10 (2 ^ 63 + 3) : Outcome Unit × vector Nat).2.capacity = 6 ∧
    ¬ (10 ≤ (vector.ctor_size 10 (2 ^ 63 + 3) : Outcome Unit × vector Nat).2.capacity) := by
  refine ⟨by decide, by decide, by decide, by decide, by decide⟩

/-- C20 fails at `n = 2 ^ 63`, a value of the 64-bit `size_type`, with
`InitialCapacity = 10`: `n > InitialCapacity`, the capacity is computed as
`n * 2` modulo `2 ^ 64`, which is `0`, and the length stored afterwards is
`n`, so the vector built has a length above its capacity. -/
theorem sized_ctor_length_exceeds_capacity :
    2 ^ 63 < SIZE_MOD ∧ 2 ^ 63 > 10 ∧ 2 ^ 63 * 2 % SIZE_MOD = 0 ∧
    (vector.ctor_size 10 (2 ^ 63) : Outcome Unit × vector Nat).2.m_capacity = 0 ∧
    (vector.ctor_size 10 (2 ^ 63) : Outcome Unit × vector Nat).2.m_size = 2 ^ 63 ∧
    (vector.ctor_size 10 (2 ^ 63) : Outcome Unit × vector Nat).2.m_capacity <
      (vector.ctor_size 10 (2 ^ 63) : Outcome Unit × vector Nat).2.m_size := by
  refine ⟨by decide, by decide, by decide, by decide, by decide, by decide⟩

end usu
